import Mathlib

/-!
Verification of the quadratic-program converter pipeline: the data model
(variables, linear/quadratic expressions, objectives, constraints, problems),
the three conversion stages (inequality-to-equality, integer-to-binary,
linear-equality-to-penalty), the orchestrating facade, and the solution
`interpret` chain.  All numeric data is modelled over `ℚ`.
-/

namespace QPConv

/-- Kind of a decision variable: binary, bounded integer, or continuous. -/
inductive VarKind where
  | binary
  | integer
  | continuous
deriving DecidableEq, Repr

/-- A decision variable: a name, a kind, and rational lower/upper bounds. -/
structure Variable where
  name : String
  kind : VarKind
  lb : ℚ
  ub : ℚ
deriving DecidableEq, Repr

/-- Comparison sense of a linear constraint. -/
inductive CmpSense where
  | le
  | ge
  | eq
deriving DecidableEq, Repr

/-- Optimization sense of an objective. -/
inductive ObjSense where
  | minimize
  | maximize
deriving DecidableEq, Repr

/-- Linear expression: a list of (variable index, coefficient) terms. -/
abbrev LinearExpr : Type := List (ℕ × ℚ)

/-- Quadratic expression: a list of (index, index, coefficient) terms. -/
abbrev QuadExpr : Type := List (ℕ × ℕ × ℚ)

/-- Objective: sense, constant term, linear part and quadratic part. -/
structure Objective where
  sense : ObjSense
  constant : ℚ
  linear : LinearExpr
  quadratic : QuadExpr
deriving DecidableEq, Repr

/-- A linear constraint: name, linear expression, sense and right-hand side. -/
structure Constraint where
  name : String
  linear : LinearExpr
  sense : CmpSense
  rhs : ℚ
deriving DecidableEq, Repr

/-- An optimization problem: ordered variables, objective, constraints. -/
structure Problem where
  vars : List Variable
  objective : Objective
  constraints : List Constraint
deriving DecidableEq, Repr

instance : Inhabited Objective := ⟨⟨.minimize, 0, [], []⟩⟩

instance : Inhabited Problem := ⟨⟨[], default, []⟩⟩

/-- Placeholder variable returned for out-of-range indices. -/
def defaultVar : Variable := ⟨"", .continuous, 0, 0⟩

/-- Variable of a problem at a given index (out of range: `defaultVar`). -/
def varAt (P : Problem) (i : ℕ) : Variable := P.vars.getD i defaultVar

/-- Value of a linear expression at an assignment vector
(entries beyond the end of the vector count as 0). -/
def evalL (L : LinearExpr) (x : List ℚ) : ℚ :=
  (L.map fun t => t.2 * x.getD t.1 0).sum

/-- Value of a quadratic expression at an assignment vector. -/
def evalQ (Q : QuadExpr) (x : List ℚ) : ℚ :=
  (Q.map fun t => t.2.2 * x.getD t.1 0 * x.getD t.2.1 0).sum

/-- Value of an objective at an assignment vector (sense not applied). -/
def objValue (o : Objective) (x : List ℚ) : ℚ :=
  o.constant + evalL o.linear x + evalQ o.quadratic x

/-- Whether a comparison sense holds between two rationals. -/
def cmpHolds (s : CmpSense) (a b : ℚ) : Prop :=
  match s with
  | .le => a ≤ b
  | .ge => b ≤ a
  | .eq => a = b

instance (s : CmpSense) (a b : ℚ) : Decidable (cmpHolds s a b) := by
  unfold cmpHolds; cases s <;> infer_instance

/-- Whether a constraint is satisfied at a given assignment vector. -/
def satisfiedAt (c : Constraint) (x : List ℚ) : Prop :=
  cmpHolds c.sense (evalL c.linear x) c.rhs

instance (c : Constraint) (x : List ℚ) : Decidable (satisfiedAt c x) := by
  unfold satisfiedAt; infer_instance

/-- Feasibility of one value for one variable: inside the bounds, in `{0,1}`
for a binary variable, and an integer for an integer variable. -/
def varFeasAt (v : Variable) (q : ℚ) : Prop :=
  v.lb ≤ q ∧ q ≤ v.ub ∧
    (v.kind = .binary → q = 0 ∨ q = 1) ∧
    (v.kind = .integer → q.den = 1)

instance (v : Variable) (q : ℚ) : Decidable (varFeasAt v q) := by
  unfold varFeasAt; infer_instance

/-- Feasible assignment: right length, each entry feasible for its variable,
and every constraint satisfied. -/
def Feasible (P : Problem) (x : List ℚ) : Prop :=
  x.length = P.vars.length ∧
    (∀ i < P.vars.length, varFeasAt (varAt P i) (x.getD i 0)) ∧
    ∀ c ∈ P.constraints, satisfiedAt c x

instance (P : Problem) (x : List ℚ) : Decidable (Feasible P x) := by
  unfold Feasible; infer_instance

/-- Every index of a linear expression lies below `n`. -/
def exprVarsBelow (n : ℕ) (L : LinearExpr) : Prop := ∀ t ∈ L, t.1 < n

instance (n : ℕ) (L : LinearExpr) : Decidable (exprVarsBelow n L) := by
  unfold exprVarsBelow; infer_instance

/-- Every index of a quadratic expression lies below `n`. -/
def quadVarsBelow (n : ℕ) (Q : QuadExpr) : Prop := ∀ t ∈ Q, t.1 < n ∧ t.2.1 < n

instance (n : ℕ) (Q : QuadExpr) : Decidable (quadVarsBelow n Q) := by
  unfold quadVarsBelow; infer_instance

/-- Well-formed problem: all expressions only mention declared variables. -/
def Wf (P : Problem) : Prop :=
  exprVarsBelow P.vars.length P.objective.linear ∧
    quadVarsBelow P.vars.length P.objective.quadratic ∧
    ∀ c ∈ P.constraints, exprVarsBelow P.vars.length c.linear

instance (P : Problem) : Decidable (Wf P) := by
  unfold Wf; infer_instance

theorem evalL_nil (x : List ℚ) : evalL [] x = 0 := rfl

theorem evalL_cons (t : ℕ × ℚ) (L : LinearExpr) (x : List ℚ) :
    evalL (t :: L) x = t.2 * x.getD t.1 0 + evalL L x := by
  unfold evalL; rw [List.map_cons, List.sum_cons]

theorem evalL_append (A B : LinearExpr) (x : List ℚ) :
    evalL (A ++ B) x = evalL A x + evalL B x := by
  unfold evalL; rw [List.map_append, List.sum_append]

theorem evalQ_nil (x : List ℚ) : evalQ [] x = 0 := rfl

theorem evalQ_cons (t : ℕ × ℕ × ℚ) (Q : QuadExpr) (x : List ℚ) :
    evalQ (t :: Q) x = t.2.2 * x.getD t.1 0 * x.getD t.2.1 0 + evalQ Q x := by
  unfold evalQ; rw [List.map_cons, List.sum_cons]

theorem evalQ_append (A B : QuadExpr) (x : List ℚ) :
    evalQ (A ++ B) x = evalQ A x + evalQ B x := by
  unfold evalQ; rw [List.map_append, List.sum_append]

/-- Multiply every coefficient of a linear expression by a scalar. -/
def scaleL (c : ℚ) (L : LinearExpr) : LinearExpr := L.map fun t => (t.1, c * t.2)

/-- Multiply every coefficient of a quadratic expression by a scalar. -/
def scaleQ (c : ℚ) (Q : QuadExpr) : QuadExpr := Q.map fun t => (t.1, t.2.1, c * t.2.2)

theorem evalL_scale (c : ℚ) (L : LinearExpr) (x : List ℚ) :
    evalL (scaleL c L) x = c * evalL L x := by
  induction L with
  | nil => simp [scaleL, evalL]
  | cons t L ih =>
      simp only [scaleL, List.map_cons] at *
      rw [evalL_cons, evalL_cons, ih]
      ring

theorem evalQ_scale (c : ℚ) (Q : QuadExpr) (x : List ℚ) :
    evalQ (scaleQ c Q) x = c * evalQ Q x := by
  induction Q with
  | nil => simp [scaleQ, evalQ]
  | cons t Q ih =>
      simp only [scaleQ, List.map_cons] at *
      rw [evalQ_cons, evalQ_cons, ih]
      ring

theorem evalL_congr {L : LinearExpr} {x y : List ℚ}
    (h : ∀ t ∈ L, x.getD t.1 0 = y.getD t.1 0) : evalL L x = evalL L y := by
  induction L with
  | nil => rfl
  | cons t L ih =>
      rw [evalL_cons, evalL_cons, h t (List.mem_cons_self t L),
        ih fun s hs => h s (List.mem_cons_of_mem t hs)]

theorem evalQ_congr {Q : QuadExpr} {x y : List ℚ}
    (h : ∀ t ∈ Q, x.getD t.1 0 = y.getD t.1 0 ∧ x.getD t.2.1 0 = y.getD t.2.1 0) :
    evalQ Q x = evalQ Q y := by
  induction Q with
  | nil => rfl
  | cons t Q ih =>
      rw [evalQ_cons, evalQ_cons, (h t (List.mem_cons_self t Q)).1,
        (h t (List.mem_cons_self t Q)).2,
        ih fun s hs => h s (List.mem_cons_of_mem t hs)]

/-- Error kinds reported by the conversion stages and the orchestrator. -/
inductive ConvError where
  | unboundedConstraint
  | unsupportedVariableKind
  | preconditionViolated
  | dimensionMismatch
  | stateNotInitialized
deriving DecidableEq, Repr

/-- Lower endpoint contributed by one linear term over the variable box. -/
def termLo (vars : List Variable) (t : ℕ × ℚ) : ℚ :=
  let v := vars.getD t.1 defaultVar
  min (t.2 * v.lb) (t.2 * v.ub)

/-- Upper endpoint contributed by one linear term over the variable box. -/
def termHi (vars : List Variable) (t : ℕ × ℚ) : ℚ :=
  let v := vars.getD t.1 defaultVar
  max (t.2 * v.lb) (t.2 * v.ub)

/-- Tight lower bound of a linear expression over the variable box. -/
def exprLo (vars : List Variable) (L : LinearExpr) : ℚ :=
  (L.map (termLo vars)).sum

/-- Tight upper bound of a linear expression over the variable box. -/
def exprHi (vars : List Variable) (L : LinearExpr) : ℚ :=
  (L.map (termHi vars)).sum

/-- Modelled from the spec: whether a linear expression is integer-valued at
every feasible point — every term's coefficient and variable bounds are
integral and the variable is of Binary or Integer kind (the converter code
itself is not under `src/`; only the tutorial notebook calling it is). -/
def exprIntegral (vars : List Variable) (L : LinearExpr) : Bool :=
  L.all fun t =>
    let v := vars.getD t.1 defaultVar
    t.2.den == 1 && v.lb.den == 1 && v.ub.den == 1 &&
      (match v.kind with
       | .continuous => false
       | _ => true)

/-- Right-hand side used for the equality produced from a LE constraint:
floored when the left side is integer-valued, unchanged otherwise. -/
def leRhs (vars : List Variable) (c : Constraint) : ℚ :=
  if exprIntegral vars c.linear then (⌊c.rhs⌋ : ℚ) else c.rhs

/-- Right-hand side used for the equality produced from a GE constraint:
ceiled when the left side is integer-valued, unchanged otherwise. -/
def geRhs (vars : List Variable) (c : Constraint) : ℚ :=
  if exprIntegral vars c.linear then (⌈c.rhs⌉ : ℚ) else c.rhs

/-- Kind given to a slack variable: integer when the constraint's left side
is integer-valued, continuous otherwise. -/
def slackKind (vars : List Variable) (c : Constraint) : VarKind :=
  if exprIntegral vars c.linear then .integer else .continuous

/-- Modelled from the spec: constraint rewriting of the
Inequality-to-Equality stage.  `n` is the number of original variables and
`k` the number of slack variables introduced so far; returns the rewritten
constraints and the list of introduced slack variables (the converter code
itself is not under `src/`). -/
def conv1C (vars : List Variable) (n : ℕ) : List Constraint → ℕ → List Constraint × List Variable
  | [], _ => ([], [])
  | c :: cs, k =>
    match c.sense with
    | .eq =>
        let r := conv1C vars n cs k
        (c :: r.1, r.2)
    | .le =>
        let rhs2 := leRhs vars c
        let sv : Variable :=
          ⟨c.name ++ "@int_slack", slackKind vars c, 0, rhs2 - exprLo vars c.linear⟩
        let c2 : Constraint := ⟨c.name, c.linear ++ [(n + k, 1)], .eq, rhs2⟩
        let r := conv1C vars n cs (k + 1)
        (c2 :: r.1, sv :: r.2)
    | .ge =>
        let rhs2 := geRhs vars c
        let sv : Variable :=
          ⟨c.name ++ "@int_slack", slackKind vars c, 0, exprHi vars c.linear - rhs2⟩
        let c2 : Constraint := ⟨c.name, c.linear ++ [(n + k, -1)], .eq, rhs2⟩
        let r := conv1C vars n cs (k + 1)
        (c2 :: r.1, sv :: r.2)

namespace InequalityToEquality

/-- Modelled from the spec: the Inequality-to-Equality `convert` — every
LE/GE constraint becomes an equality with a fresh slack variable appended
after all original variables; the objective passes through unchanged.  The
returned state is the original variable count (the converter code itself is
not under `src/`). -/
def convert (P : Problem) : Problem × ℕ :=
  let r := conv1C P.vars P.vars.length P.constraints 0
  (⟨P.vars ++ r.2, P.objective, r.1⟩, P.vars.length)

/-- Modelled from the spec: the Inequality-to-Equality `interpret` — drop
the slack entries, keeping the leading original-variable prefix. -/
def interpret (n : ℕ) (v : List ℚ) : List ℚ := v.take n

end InequalityToEquality

/-- Slack value each rewritten constraint forces at a given assignment of
the original variables (one entry per LE/GE constraint, in order). -/
def slackVals (vars : List Variable) (x : List ℚ) : List Constraint → List ℚ
  | [] => []
  | c :: cs =>
    match c.sense with
    | .eq => slackVals vars x cs
    | .le => (leRhs vars c - evalL c.linear x) :: slackVals vars x cs
    | .ge => (evalL c.linear x - geRhs vars c) :: slackVals vars x cs

/-- Assignment for the converted problem of stage 1: the original assignment
followed by the forced slack values. -/
def encode1 (P : Problem) (x : List ℚ) : List ℚ :=
  x ++ slackVals P.vars x P.constraints

theorem isInt_iff {q : ℚ} : q.den = 1 ↔ ∃ z : ℤ, q = (z : ℚ) := by
  constructor
  · intro h; exact ⟨q.num, ((Rat.den_eq_one_iff q).mp h).symm⟩
  · rintro ⟨z, rfl⟩; exact Rat.den_intCast z

theorem den_one_add {a b : ℚ} (ha : a.den = 1) (hb : b.den = 1) : (a + b).den = 1 := by
  rw [isInt_iff] at *
  obtain ⟨za, rfl⟩ := ha; obtain ⟨zb, rfl⟩ := hb
  exact ⟨za + zb, by push_cast; ring⟩

theorem den_one_mul {a b : ℚ} (ha : a.den = 1) (hb : b.den = 1) : (a * b).den = 1 := by
  rw [isInt_iff] at *
  obtain ⟨za, rfl⟩ := ha; obtain ⟨zb, rfl⟩ := hb
  exact ⟨za * zb, by push_cast; ring⟩

theorem den_one_sub {a b : ℚ} (ha : a.den = 1) (hb : b.den = 1) : (a - b).den = 1 := by
  rw [isInt_iff] at *
  obtain ⟨za, rfl⟩ := ha; obtain ⟨zb, rfl⟩ := hb
  exact ⟨za - zb, by push_cast; ring⟩

theorem term_bounds {vars : List Variable} {x : List ℚ}
    (hlen : x.length = vars.length)
    (hbox : ∀ i < vars.length,
      (vars.getD i defaultVar).lb ≤ x.getD i 0 ∧ x.getD i 0 ≤ (vars.getD i defaultVar).ub)
    (t : ℕ × ℚ) :
    termLo vars t ≤ t.2 * x.getD t.1 0 ∧ t.2 * x.getD t.1 0 ≤ termHi vars t := by
  by_cases h : t.1 < vars.length
  · obtain ⟨h1, h2⟩ := hbox t.1 h
    unfold termLo termHi
    rcases le_total 0 t.2 with hc | hc
    · exact ⟨le_trans (min_le_left _ _) (mul_le_mul_of_nonneg_left h1 hc),
        le_trans (mul_le_mul_of_nonneg_left h2 hc) (le_max_right _ _)⟩
    · exact ⟨le_trans (min_le_right _ _) (mul_le_mul_of_nonpos_left h2 hc),
        le_trans (mul_le_mul_of_nonpos_left h1 hc) (le_max_left _ _)⟩
  · have hx : x.getD t.1 0 = 0 := List.getD_eq_default _ _ (by omega)
    have hv : vars.getD t.1 defaultVar = defaultVar := List.getD_eq_default _ _ (by omega)
    unfold termLo termHi
    rw [hx, hv]
    simp [defaultVar]

theorem evalL_bounds {vars : List Variable} {x : List ℚ} {L : LinearExpr}
    (hlen : x.length = vars.length)
    (hbox : ∀ i < vars.length,
      (vars.getD i defaultVar).lb ≤ x.getD i 0 ∧ x.getD i 0 ≤ (vars.getD i defaultVar).ub) :
    exprLo vars L ≤ evalL L x ∧ evalL L x ≤ exprHi vars L := by
  induction L with
  | nil => simp [exprLo, exprHi, evalL]
  | cons t L ih =>
      have ht := term_bounds hlen hbox t
      constructor
      · show exprLo vars (t :: L) ≤ evalL (t :: L) x
        rw [evalL_cons]
        unfold exprLo
        rw [List.map_cons, List.sum_cons]
        exact add_le_add ht.1 ih.1
      · show evalL (t :: L) x ≤ exprHi vars (t :: L)
        rw [evalL_cons]
        unfold exprHi
        rw [List.map_cons, List.sum_cons]
        exact add_le_add ht.2 ih.2

theorem exprIntegral_facts {vars : List Variable} {L : LinearExpr}
    (hint : exprIntegral vars L = true) :
    ∀ t ∈ L, t.2.den = 1 ∧ (vars.getD t.1 defaultVar).lb.den = 1 ∧
      (vars.getD t.1 defaultVar).ub.den = 1 ∧ (vars.getD t.1 defaultVar).kind ≠ .continuous := by
  intro t ht
  have h := List.all_eq_true.mp hint t ht
  simp only [Bool.and_eq_true, beq_iff_eq] at h
  refine ⟨h.1.1.1, h.1.1.2, h.1.2, ?_⟩
  intro hk
  rw [hk] at h
  exact Bool.false_ne_true h.2

theorem evalL_den_one {vars : List Variable} {L : LinearExpr} {x : List ℚ}
    (hint : exprIntegral vars L = true)
    (hfeas : ∀ i < vars.length, varFeasAt (vars.getD i defaultVar) (x.getD i 0)) :
    (evalL L x).den = 1 := by
  induction L with
  | nil => rfl
  | cons t L ih =>
      have hfacts := exprIntegral_facts hint t (List.mem_cons_self t L)
      have hint2 : exprIntegral vars L = true := by
        have := List.all_eq_true.mp hint
        exact List.all_eq_true.mpr fun s hs => this s (List.mem_cons_of_mem t hs)
      rw [evalL_cons]
      refine den_one_add (den_one_mul hfacts.1 ?_) (ih hint2)
      by_cases hi : t.1 < vars.length
      · have hv := hfeas t.1 hi
        rcases hkind : (vars.getD t.1 defaultVar).kind with hk | hk | hk
        · rcases hv.2.2.1 hkind with h0 | h0 <;> rw [h0] <;> rfl
        · exact hv.2.2.2 hkind
        · exact absurd hkind hfacts.2.2.2
      · exfalso
        apply hfacts.2.2.2
        rw [List.getD_eq_default _ _ (by omega)]
        rfl

theorem feas_box {P : Problem} {x : List ℚ} (hf : Feasible P x) :
    ∀ i < P.vars.length,
      (P.vars.getD i defaultVar).lb ≤ x.getD i 0 ∧ x.getD i 0 ≤ (P.vars.getD i defaultVar).ub := by
  intro i hi
  have := hf.2.1 i hi
  exact ⟨this.1, this.2.1⟩

theorem conv1_slack_facts {vars : List Variable} {x : List ℚ}
    (hlen : x.length = vars.length)
    (hfeas : ∀ i < vars.length, varFeasAt (vars.getD i defaultVar) (x.getD i 0))
    (n : ℕ) :
    ∀ (cs : List Constraint) (k : ℕ),
      (∀ c ∈ cs, satisfiedAt c x) →
      List.Forall₂
        (fun (sv : Variable) (s : ℚ) =>
          sv.lb = 0 ∧ 0 ≤ s ∧ s ≤ sv.ub ∧ sv.kind ≠ .binary ∧
            (sv.kind = .integer → s.den = 1))
        (conv1C vars n cs k).2 (slackVals vars x cs) := by
  intro cs
  induction cs with
  | nil => intro k _; exact List.Forall₂.nil
  | cons c cs ih =>
      intro k hsat
      have hsatc : satisfiedAt c x := hsat c (List.mem_cons_self c cs)
      have hsat2 : ∀ d ∈ cs, satisfiedAt d x := fun d hd => hsat d (List.mem_cons_of_mem c hd)
      cases hc : c.sense with
      | eq =>
          show List.Forall₂ _ (conv1C vars n (c :: cs) k).2 (slackVals vars x (c :: cs))
          unfold conv1C slackVals
          rw [hc]
          exact ih k hsat2
      | le =>
          show List.Forall₂ _ (conv1C vars n (c :: cs) k).2 (slackVals vars x (c :: cs))
          unfold conv1C slackVals
          rw [hc]
          refine List.Forall₂.cons ?_ (ih (k + 1) hsat2)
          have hbnd := (evalL_bounds (L := c.linear) hlen (fun i hi => ⟨(hfeas i hi).1, (hfeas i hi).2.1⟩)).1
          have hs : satisfiedAt c x := hsatc
          unfold satisfiedAt cmpHolds at hs
          rw [hc] at hs
          by_cases hI : exprIntegral vars c.linear = true
          · have hd : (evalL c.linear x).den = 1 := evalL_den_one hI hfeas
            obtain ⟨z, hz⟩ := isInt_iff.mp hd
            have hzle : z ≤ ⌊c.rhs⌋ := Int.le_floor.mpr (by rw [← hz]; exact hs)
            refine ⟨rfl, ?_, ?_, ?_, ?_⟩
            · show 0 ≤ leRhs vars c - evalL c.linear x
              rw [leRhs, if_pos hI, hz]
              rw [sub_nonneg]
              exact_mod_cast hzle
            · show leRhs vars c - evalL c.linear x ≤ leRhs vars c - exprLo vars c.linear
              exact sub_le_sub_left hbnd _
            · show slackKind vars c ≠ .binary
              rw [slackKind, if_pos hI]
              intro h; cases h
            · intro _
              show (leRhs vars c - evalL c.linear x).den = 1
              rw [leRhs, if_pos hI]
              exact den_one_sub (Rat.den_intCast _) hd
          · have hI2 : exprIntegral vars c.linear = false := by
              cases hIb : exprIntegral vars c.linear
              · rfl
              · exact absurd hIb hI
            refine ⟨rfl, ?_, ?_, ?_, ?_⟩
            · show 0 ≤ leRhs vars c - evalL c.linear x
              rw [leRhs, if_neg (by rw [hI2]; exact Bool.false_ne_true)]
              rw [sub_nonneg]
              exact hs
            · show leRhs vars c - evalL c.linear x ≤ leRhs vars c - exprLo vars c.linear
              exact sub_le_sub_left hbnd _
            · show slackKind vars c ≠ .binary
              rw [slackKind, if_neg (by rw [hI2]; exact Bool.false_ne_true)]
              intro h; cases h
            · intro hk
              exfalso
              rw [slackKind, if_neg (by rw [hI2]; exact Bool.false_ne_true)] at hk
              cases hk
      | ge =>
          show List.Forall₂ _ (conv1C vars n (c :: cs) k).2 (slackVals vars x (c :: cs))
          unfold conv1C slackVals
          rw [hc]
          refine List.Forall₂.cons ?_ (ih (k + 1) hsat2)
          have hbnd := (evalL_bounds (L := c.linear) hlen (fun i hi => ⟨(hfeas i hi).1, (hfeas i hi).2.1⟩)).2
          have hs : satisfiedAt c x := hsatc
          unfold satisfiedAt cmpHolds at hs
          rw [hc] at hs
          by_cases hI : exprIntegral vars c.linear = true
          · have hd : (evalL c.linear x).den = 1 := evalL_den_one hI hfeas
            obtain ⟨z, hz⟩ := isInt_iff.mp hd
            have hzle : ⌈c.rhs⌉ ≤ z := Int.ceil_le.mpr (by rw [← hz]; exact hs)
            refine ⟨rfl, ?_, ?_, ?_, ?_⟩
            · show 0 ≤ evalL c.linear x - geRhs vars c
              rw [geRhs, if_pos hI, hz]
              rw [sub_nonneg]
              exact_mod_cast hzle
            · show evalL c.linear x - geRhs vars c ≤ exprHi vars c.linear - geRhs vars c
              exact sub_le_sub_right hbnd _
            · show slackKind vars c ≠ .binary
              rw [slackKind, if_pos hI]
              intro h; cases h
            · intro _
              show (evalL c.linear x - geRhs vars c).den = 1
              rw [geRhs, if_pos hI]
              exact den_one_sub hd (Rat.den_intCast _)
          · have hI2 : exprIntegral vars c.linear = false := by
              cases hIb : exprIntegral vars c.linear
              · rfl
              · exact absurd hIb hI
            refine ⟨rfl, ?_, ?_, ?_, ?_⟩
            · show 0 ≤ evalL c.linear x - geRhs vars c
              rw [geRhs, if_neg (by rw [hI2]; exact Bool.false_ne_true)]
              rw [sub_nonneg]
              exact hs
            · show evalL c.linear x - geRhs vars c ≤ exprHi vars c.linear - geRhs vars c
              exact sub_le_sub_right hbnd _
            · show slackKind vars c ≠ .binary
              rw [slackKind, if_neg (by rw [hI2]; exact Bool.false_ne_true)]
              intro h; cases h
            · intro hk
              exfalso
              rw [slackKind, if_neg (by rw [hI2]; exact Bool.false_ne_true)] at hk
              cases hk

theorem conv1_sat {vars : List Variable} {x : List ℚ} {n : ℕ} :
    ∀ (cs : List Constraint) (k : ℕ) (y : List ℚ),
      (∀ c ∈ cs, exprVarsBelow n c.linear ∧ satisfiedAt c x) →
      (∀ i < n, y.getD i 0 = x.getD i 0) →
      (∀ j, y.getD (n + k + j) 0 = (slackVals vars x cs).getD j 0) →
      ∀ c ∈ (conv1C vars n cs k).1, satisfiedAt c y := by
  intro cs
  induction cs with
  | nil => intro k y _ _ _ c hc; cases hc
  | cons c cs ih =>
      intro k y hcs hy0 hys
      have hhead := hcs c (List.mem_cons_self c cs)
      have htail : ∀ d ∈ cs, exprVarsBelow n d.linear ∧ satisfiedAt d x :=
        fun d hd => hcs d (List.mem_cons_of_mem c hd)
      have hLy : evalL c.linear y = evalL c.linear x :=
        evalL_congr fun t ht => hy0 t.1 (hhead.1 t ht)
      cases hc : c.sense with
      | eq =>
          intro d hd
          have hconv : (conv1C vars n (c :: cs) k).1 = c :: (conv1C vars n cs k).1 := by
            simp only [conv1C, hc]
          have hslack : slackVals vars x (c :: cs) = slackVals vars x cs := by
            simp only [slackVals, hc]
          rw [hconv] at hd
          rcases List.mem_cons.mp hd with rfl | hd2
          · have hs := hhead.2
            unfold satisfiedAt at *
            rw [hLy]
            exact hs
          · exact ih k y htail hy0 (fun j => by rw [← hslack]; exact hys j) d hd2
      | le =>
          intro d hd
          have hconv : (conv1C vars n (c :: cs) k).1 =
              (⟨c.name, c.linear ++ [(n + k, 1)], .eq, leRhs vars c⟩ : Constraint) ::
                (conv1C vars n cs (k + 1)).1 := by
            simp only [conv1C, hc]
          have hslack : slackVals vars x (c :: cs) =
              (leRhs vars c - evalL c.linear x) :: slackVals vars x cs := by
            simp only [slackVals, hc]
          rw [hconv] at hd
          rcases List.mem_cons.mp hd with rfl | hd2
          · show satisfiedAt _ y
            unfold satisfiedAt cmpHolds
            show evalL (c.linear ++ [(n + k, 1)]) y = leRhs vars c
            rw [evalL_append, hLy, evalL_cons, evalL_nil]
            have hyk : y.getD (n + k) 0 = leRhs vars c - evalL c.linear x := by
              have := hys 0
              rw [hslack] at this
              simpa using this
            rw [hyk]
            ring
          · refine ih (k + 1) y htail hy0 (fun j => ?_) d hd2
            have := hys (j + 1)
            rw [hslack, List.getD_cons_succ] at this
            rw [show n + (k + 1) + j = n + k + (j + 1) by omega]
            exact this
      | ge =>
          intro d hd
          have hconv : (conv1C vars n (c :: cs) k).1 =
              (⟨c.name, c.linear ++ [(n + k, -1)], .eq, geRhs vars c⟩ : Constraint) ::
                (conv1C vars n cs (k + 1)).1 := by
            simp only [conv1C, hc]
          have hslack : slackVals vars x (c :: cs) =
              (evalL c.linear x - geRhs vars c) :: slackVals vars x cs := by
            simp only [slackVals, hc]
          rw [hconv] at hd
          rcases List.mem_cons.mp hd with rfl | hd2
          · show satisfiedAt _ y
            unfold satisfiedAt cmpHolds
            show evalL (c.linear ++ [(n + k, -1)]) y = geRhs vars c
            rw [evalL_append, hLy, evalL_cons, evalL_nil]
            have hyk : y.getD (n + k) 0 = evalL c.linear x - geRhs vars c := by
              have := hys 0
              rw [hslack] at this
              simpa using this
            rw [hyk]
            ring
          · refine ih (k + 1) y htail hy0 (fun j => ?_) d hd2
            have := hys (j + 1)
            rw [hslack, List.getD_cons_succ] at this
            rw [show n + (k + 1) + j = n + k + (j + 1) by omega]
            exact this

theorem conv1_all_eq {vars : List Variable} {n : ℕ} :
    ∀ (cs : List Constraint) (k : ℕ),
      (∀ c ∈ cs, c.sense = .le ∨ c.sense = .ge ∨ c.sense = .eq) →
      ∀ c ∈ (conv1C vars n cs k).1, c.sense = .eq := by
  intro cs
  induction cs with
  | nil => intro k _ c hc; cases hc
  | cons c cs ih =>
      intro k hk d hd
      cases hc : c.sense with
      | eq =>
          have hconv : (conv1C vars n (c :: cs) k).1 = c :: (conv1C vars n cs k).1 := by
            simp only [conv1C, hc]
          rw [hconv] at hd
          rcases List.mem_cons.mp hd with rfl | hd2
          · exact hc
          · exact ih k (fun e he => hk e (List.mem_cons_of_mem c he)) d hd2
      | le =>
          have hconv : (conv1C vars n (c :: cs) k).1 =
              (⟨c.name, c.linear ++ [(n + k, 1)], .eq, leRhs vars c⟩ : Constraint) ::
                (conv1C vars n cs (k + 1)).1 := by
            simp only [conv1C, hc]
          rw [hconv] at hd
          rcases List.mem_cons.mp hd with rfl | hd2
          · rfl
          · exact ih (k + 1) (fun e he => hk e (List.mem_cons_of_mem c he)) d hd2
      | ge =>
          have hconv : (conv1C vars n (c :: cs) k).1 =
              (⟨c.name, c.linear ++ [(n + k, -1)], .eq, geRhs vars c⟩ : Constraint) ::
                (conv1C vars n cs (k + 1)).1 := by
            simp only [conv1C, hc]
          rw [hconv] at hd
          rcases List.mem_cons.mp hd with rfl | hd2
          · rfl
          · exact ih (k + 1) (fun e he => hk e (List.mem_cons_of_mem c he)) d hd2

theorem forall₂_getD {α β : Type} {R : α → β → Prop} {l₁ : List α} {l₂ : List β}
    (h : List.Forall₂ R l₁ l₂) (j : ℕ) (hj : j < l₁.length) (da : α) (db : β) :
    R (l₁.getD j da) (l₂.getD j db) := by
  induction h generalizing j with
  | nil => cases hj
  | cons hr ht ih =>
      cases j with
      | zero => simpa using hr
      | succ j => simpa using ih j (by simpa using hj)

theorem stage1_spec {P : Problem} {x : List ℚ} (hw : Wf P) (hf : Feasible P x) :
    Feasible (InequalityToEquality.convert P).1 (encode1 P x) ∧
      objValue (InequalityToEquality.convert P).1.objective (encode1 P x) =
        objValue P.objective x ∧
      InequalityToEquality.interpret (InequalityToEquality.convert P).2 (encode1 P x) = x := by
  have hlen : x.length = P.vars.length := hf.1
  have hfeas : ∀ i < P.vars.length, varFeasAt (P.vars.getD i defaultVar) (x.getD i 0) :=
    hf.2.1
  have hF2 := conv1_slack_facts hlen hfeas P.vars.length P.constraints 0
    (fun c hc => hf.2.2 c hc)
  have hslen : (conv1C P.vars P.vars.length P.constraints 0).2.length =
      (slackVals P.vars x P.constraints).length := hF2.length_eq
  have hy0 : ∀ i < P.vars.length, (encode1 P x).getD i 0 = x.getD i 0 := by
    intro i hi
    exact List.getD_append _ _ _ _ (by omega)
  have hys : ∀ j, (encode1 P x).getD (P.vars.length + 0 + j) 0 =
      (slackVals P.vars x P.constraints).getD j 0 := by
    intro j
    unfold encode1
    rw [List.getD_append_right _ _ _ _ (by omega)]
    congr 1
    omega
  refine ⟨⟨?_, ?_, ?_⟩, ?_, ?_⟩
  · show (encode1 P x).length = (P.vars ++ (conv1C P.vars P.vars.length P.constraints 0).2).length
    unfold encode1
    rw [List.length_append, List.length_append, hlen, hslen]
  · show ∀ i < (P.vars ++ (conv1C P.vars P.vars.length P.constraints 0).2).length, _
    intro i hi
    rw [List.length_append] at hi
    by_cases hin : i < P.vars.length
    · show varFeasAt ((P.vars ++ _).getD i defaultVar) ((encode1 P x).getD i 0)
      rw [List.getD_append _ _ _ _ hin, hy0 i hin]
      exact hfeas i hin
    · show varFeasAt ((P.vars ++ _).getD i defaultVar) ((encode1 P x).getD i 0)
      rw [List.getD_append_right _ _ _ _ (by omega)]
      have hj : i - P.vars.length < (conv1C P.vars P.vars.length P.constraints 0).2.length := by
        omega
      have hval : (encode1 P x).getD i 0 =
          (slackVals P.vars x P.constraints).getD (i - P.vars.length) 0 := by
        have := hys (i - P.vars.length)
        rw [show P.vars.length + 0 + (i - P.vars.length) = i by omega] at this
        exact this
      rw [hval]
      have hr := forall₂_getD hF2 (i - P.vars.length) hj defaultVar 0
      exact ⟨by rw [hr.1]; exact hr.2.1, hr.2.2.1,
        fun hb => absurd hb hr.2.2.2.1, hr.2.2.2.2⟩
  · show ∀ c ∈ (conv1C P.vars P.vars.length P.constraints 0).1, satisfiedAt c (encode1 P x)
    exact conv1_sat P.constraints 0 (encode1 P x)
      (fun c hc => ⟨hw.2.2 c hc, hf.2.2 c hc⟩) hy0 hys
  · show objValue P.objective (encode1 P x) = objValue P.objective x
    unfold objValue
    rw [evalL_congr (fun t ht => hy0 t.1 (hw.1 t ht)),
      evalQ_congr (fun t ht => ⟨hy0 t.1 (hw.2.1 t ht).1, hy0 t.2.1 (hw.2.1 t ht).2⟩)]
  · show (encode1 P x).take P.vars.length = x
    unfold encode1
    rw [← hlen]
    exact List.take_left x _

/-- Largest `m` with `2 ^ m - 1 ≤ n` (the power count of the
bounded-coefficient encoding). -/
def bcM (n : ℕ) : ℕ := Nat.log 2 (n + 1)

/-- Modelled from the spec: coefficient list of the bounded-coefficient
encoding for the range `[0, n]` — the powers `2 ^ 0 .. 2 ^ (m-1)` followed,
when they do not already sum to `n`, by one final corrective coefficient
(the converter code itself is not under `src/`). -/
def bcCoeffs (n : ℕ) : List ℕ :=
  (List.range (bcM n)).map (2 ^ ·) ++
    (if 2 ^ bcM n - 1 < n then [n - (2 ^ bcM n - 1)] else [])

/-- Little-endian binary digits of `t`, padded or truncated to `m` digits. -/
def natBits : ℕ → ℕ → List ℕ
  | 0, _ => []
  | m + 1, t => (t % 2) :: natBits m (t / 2)

/-- Canonical 0/1 digit vector whose weighted sum against `bcCoeffs n`
equals `t`, for `t ≤ n`. -/
def bcDigits (n t : ℕ) : List ℕ :=
  if 2 ^ bcM n - 1 < n then
    if t ≤ 2 ^ bcM n - 1 then natBits (bcM n) t ++ [0]
    else natBits (bcM n) (t - (n - (2 ^ bcM n - 1))) ++ [1]
  else natBits (bcM n) t

/-- Weighted dot product of two natural-number lists (shorter list wins). -/
def dotN : List ℕ → List ℕ → ℕ
  | [], _ => 0
  | _ :: _, [] => 0
  | c :: cs, d :: ds => c * d + dotN cs ds

/-- Power-of-two coefficient list `2 ^ 0 .. 2 ^ (m-1)`. -/
def pw (m : ℕ) : List ℕ := (List.range m).map (2 ^ ·)

theorem pw_succ (m : ℕ) : pw (m + 1) = 1 :: (pw m).map (fun c => 2 * c) := by
  unfold pw
  rw [List.range_succ_eq_map, List.map_cons, List.map_map, List.map_map]
  refine congrArg₂ _ (by norm_num) (List.map_congr_left fun i _ => ?_)
  simp [Function.comp, pow_succ, Nat.mul_comm]

theorem dotN_map_two (cs ds : List ℕ) : dotN ((cs.map fun c => 2 * c)) ds = 2 * dotN cs ds := by
  induction cs generalizing ds with
  | nil => simp [dotN]
  | cons c cs ih =>
      cases ds with
      | nil => simp [dotN]
      | cons d ds =>
          show 2 * c * d + dotN (cs.map fun c => 2 * c) ds = 2 * (c * d + dotN cs ds)
          rw [ih]
          ring

theorem natBits_length (m : ℕ) : ∀ t, (natBits m t).length = m := by
  induction m with
  | zero => intro t; rfl
  | succ m ih => intro t; show (natBits m (t / 2)).length + 1 = m + 1; rw [ih]

theorem natBits_le_one (m : ℕ) : ∀ t, ∀ d ∈ natBits m t, d ≤ 1 := by
  induction m with
  | zero => intro t d hd; cases hd
  | succ m ih =>
      intro t d hd
      rcases List.mem_cons.mp hd with rfl | hd2
      · omega
      · exact ih (t / 2) d hd2

theorem dotN_pw_bits (m : ℕ) : ∀ t, t < 2 ^ m → dotN (pw m) (natBits m t) = t := by
  induction m with
  | zero =>
      intro t ht
      interval_cases t
      rfl
  | succ m ih =>
      intro t ht
      rw [pw_succ]
      show 1 * (t % 2) + dotN ((pw m).map fun c => 2 * c) (natBits m (t / 2)) = t
      rw [dotN_map_two, ih (t / 2) (by omega)]
      omega

theorem pw_sum (m : ℕ) : (pw m).sum = 2 ^ m - 1 := by
  induction m with
  | zero => rfl
  | succ m ih =>
      unfold pw
      rw [List.range_succ, List.map_append, List.sum_append]
      show (pw m).sum + (2 ^ m + 0) = 2 ^ (m + 1) - 1
      rw [ih, pow_succ]
      have : 1 ≤ 2 ^ m := Nat.one_le_two_pow
      omega

theorem bcM_le (n : ℕ) : 2 ^ bcM n - 1 ≤ n := by
  have h : 2 ^ Nat.log 2 (n + 1) ≤ n + 1 := Nat.pow_log_le_self 2 (x := n + 1) (by omega)
  unfold bcM
  omega

theorem bcM_lt (n : ℕ) : n < 2 ^ (bcM n + 1) - 1 := by
  have := Nat.lt_pow_succ_log_self (b := 2) (by norm_num) (n + 1)
  have h2 : 2 ^ (Nat.log 2 (n + 1) + 1) = 2 * 2 ^ Nat.log 2 (n + 1) := by
    rw [pow_succ]; ring
  unfold bcM
  have h3 : 1 ≤ 2 ^ Nat.log 2 (n + 1) := Nat.one_le_two_pow
  omega

theorem bcM_max {n m : ℕ} (h : 2 ^ m - 1 ≤ n) : m ≤ bcM n := by
  have h1 : 2 ^ m ≤ n + 1 := by
    have : 1 ≤ 2 ^ m := Nat.one_le_two_pow
    omega
  exact (Nat.pow_le_iff_le_log (by norm_num) (by omega)).mp h1

theorem bcCoeffs_sum (n : ℕ) : (bcCoeffs n).sum = n := by
  unfold bcCoeffs
  rw [List.sum_append]
  by_cases h : 2 ^ bcM n - 1 < n
  · rw [if_pos h]
    show (pw (bcM n)).sum + (n - (2 ^ bcM n - 1) + 0) = n
    rw [pw_sum]
    omega
  · rw [if_neg h]
    show (pw (bcM n)).sum + 0 = n
    rw [pw_sum]
    have := bcM_le n
    omega

theorem dotN_le_sum {cs ds : List ℕ} (h : ∀ d ∈ ds, d ≤ 1) : dotN cs ds ≤ cs.sum := by
  induction cs generalizing ds with
  | nil => simp [dotN]
  | cons c cs ih =>
      cases ds with
      | nil => simp [dotN]
      | cons d ds =>
          show c * d + dotN cs ds ≤ c + cs.sum
          have hd : d ≤ 1 := h d (List.mem_cons_self d ds)
          have h1 : c * d ≤ c := by
            calc c * d ≤ c * 1 := Nat.mul_le_mul_left c hd
            _ = c := Nat.mul_one c
          exact Nat.add_le_add h1 (ih fun e he => h e (List.mem_cons_of_mem d he))

theorem dotN_append {cs ds : List ℕ} (cs2 ds2 : List ℕ) (h : cs.length = ds.length) :
    dotN (cs ++ cs2) (ds ++ ds2) = dotN cs ds + dotN cs2 ds2 := by
  induction cs generalizing ds with
  | nil =>
      cases ds with
      | nil => simp [dotN]
      | cons d ds => cases h
  | cons c cs ih =>
      cases ds with
      | nil => cases h
      | cons d ds =>
          show c * d + dotN (cs ++ cs2) (ds ++ ds2) = c * d + dotN cs ds + dotN cs2 ds2
          rw [ih (show cs.length = ds.length by simpa using h)]
          omega

theorem bcDigits_length (n t : ℕ) : (bcDigits n t).length = (bcCoeffs n).length := by
  unfold bcDigits bcCoeffs
  by_cases h : 2 ^ bcM n - 1 < n
  · rw [if_pos h, if_pos h]
    by_cases h2 : t ≤ 2 ^ bcM n - 1
    · rw [if_pos h2]
      simp [natBits_length, pw]
    · rw [if_neg h2]
      simp [natBits_length, pw]
  · rw [if_neg h, if_neg h]
    simp [natBits_length, pw]

theorem bcDigits_le_one (n t : ℕ) : ∀ d ∈ bcDigits n t, d ≤ 1 := by
  unfold bcDigits
  intro d hd
  by_cases h : 2 ^ bcM n - 1 < n
  · rw [if_pos h] at hd
    by_cases h2 : t ≤ 2 ^ bcM n - 1
    · rw [if_pos h2] at hd
      rcases List.mem_append.mp hd with h3 | h3
      · exact natBits_le_one _ _ d h3
      · simp at h3; omega
    · rw [if_neg h2] at hd
      rcases List.mem_append.mp hd with h3 | h3
      · exact natBits_le_one _ _ d h3
      · simp at h3; omega
  · rw [if_neg h] at hd
    exact natBits_le_one _ _ d hd

theorem bcDigits_dot {n t : ℕ} (h : t ≤ n) : dotN (bcCoeffs n) (bcDigits n t) = t := by
  have hlt := bcM_lt n
  have hle := bcM_le n
  have hone : 1 ≤ 2 ^ bcM n := Nat.one_le_two_pow
  unfold bcDigits bcCoeffs
  by_cases h1 : 2 ^ bcM n - 1 < n
  · rw [if_pos h1, if_pos h1]
    by_cases h2 : t ≤ 2 ^ bcM n - 1
    · rw [if_pos h2]
      rw [dotN_append _ _ (by simp [natBits_length, pw])]
      show dotN (pw (bcM n)) (natBits (bcM n) t) + (n - (2 ^ bcM n - 1)) * 0 + 0 = t
      rw [dotN_pw_bits _ t (by omega)]
      omega
    · rw [if_neg h2]
      rw [dotN_append _ _ (by simp [natBits_length, pw])]
      show dotN (pw (bcM n)) (natBits (bcM n) (t - (n - (2 ^ bcM n - 1)))) +
        ((n - (2 ^ bcM n - 1)) * 1 + 0) = t
      rw [dotN_pw_bits _ _ (by omega)]
      omega
  · rw [if_neg h1, if_neg h1]
    rw [List.append_nil]
    show dotN (pw (bcM n)) (natBits (bcM n) t) = t
    exact dotN_pw_bits _ t (by omega)

theorem bcCoeffs_length_le (n : ℕ) : (bcCoeffs n).length ≤ Nat.clog 2 (n + 1) := by
  unfold bcCoeffs
  rw [List.length_append]
  by_cases h : 2 ^ bcM n - 1 < n
  · rw [if_pos h]
    have h1 : ¬ (n + 1 ≤ 2 ^ bcM n) := by
      have : 1 ≤ 2 ^ bcM n := Nat.one_le_two_pow
      omega
    have h2 : ¬ (Nat.clog 2 (n + 1) ≤ bcM n) := by
      intro hc
      exact h1 ((Nat.le_pow_iff_clog_le (by norm_num)).mpr hc)
    simp only [List.length_map, List.length_range, List.length_singleton]
    omega
  · rw [if_neg h]
    simp only [List.length_map, List.length_range, List.length_nil]
    have h5 : bcM n ≤ Nat.clog 2 (n + 1) := by
      by_contra hcon
      push_neg at hcon
      rcases Nat.eq_zero_or_pos (bcM n) with h0 | h0
      · omega
      · have h6 : Nat.clog 2 (n + 1) ≤ bcM n - 1 := by omega
        have h7 : n + 1 ≤ 2 ^ (bcM n - 1) :=
          (Nat.le_pow_iff_clog_le (b := 2) (by norm_num)).mpr h6
        have h8 : 2 ^ (bcM n - 1) ≤ 2 ^ bcM n - 1 := by
          have h9 : bcM n - 1 + 1 = bcM n := by omega
          have h10 : 2 ^ (bcM n - 1 + 1) = 2 * 2 ^ (bcM n - 1) := by rw [pow_succ]; ring
          rw [h9] at h10
          have h11 : 1 ≤ 2 ^ (bcM n - 1) := Nat.one_le_two_pow
          omega
        have h12 := bcM_le n
        omega
    omega

/-- Per-variable encoding record: additive base, coefficient list, and
starting offset of the corresponding block of binary variables. -/
structure VarEnc where
  base : ℚ
  coeffs : List ℚ
  offset : ℕ
deriving DecidableEq, Repr

/-- Encoding used for an out-of-range index: contributes the constant 0. -/
def defaultEnc : VarEnc := ⟨0, [], 0⟩

/-- Linear terms with the given coefficients at consecutive indices. -/
def termsFrom : ℕ → List ℚ → LinearExpr
  | _, [] => []
  | off, c :: cs => (off, c) :: termsFrom (off + 1) cs

/-- Linear expression of one encoding over the new binary variables. -/
def VarEnc.terms (e : VarEnc) : LinearExpr := termsFrom e.offset e.coeffs

/-- Affine value an encoding takes at an assignment of the new variables. -/
def VarEnc.val (e : VarEnc) (y : List ℚ) : ℚ := e.base + evalL e.terms y

/-- Width of the integer range of a variable (0 for non-integral bounds). -/
def intRange (v : Variable) : ℕ := (v.ub - v.lb).num.toNat

/-- Additive base of a variable encoding: the lower bound for an integer
variable, 0 for a pass-through variable. -/
def encBase (v : Variable) : ℚ :=
  match v.kind with
  | .integer => v.lb
  | _ => 0

/-- Coefficients of a variable encoding: the bounded-coefficient scheme for
an integer variable, the single coefficient 1 for a pass-through variable. -/
def encCoeffs (v : Variable) : List ℚ :=
  match v.kind with
  | .integer => (bcCoeffs (intRange v)).map (fun c : ℕ => (c : ℚ))
  | _ => [1]

/-- Encodings of a variable list, blocks placed at consecutive offsets. -/
def mkEncs : List Variable → ℕ → List VarEnc
  | [], _ => []
  | v :: vs, off => ⟨encBase v, encCoeffs v, off⟩ :: mkEncs vs (off + (encCoeffs v).length)

/-- New variables a single variable expands into. -/
def expandVar (v : Variable) : List Variable :=
  match v.kind with
  | .integer => (List.range (encCoeffs v).length).map fun k =>
      ⟨v.name ++ "@" ++ toString k, .binary, 0, 1⟩
  | _ => [v]

/-- Bilinear product of two linear expressions as a quadratic expression. -/
def mulLL (A B : LinearExpr) : QuadExpr :=
  match A with
  | [] => []
  | a :: A2 => (B.map fun b => (a.1, b.1, a.2 * b.2)) ++ mulLL A2 B

/-- Substitution of encodings into a linear expression: resulting constant
offset and linear expression over the new variables. -/
def substL (es : List VarEnc) : LinearExpr → ℚ × LinearExpr
  | [] => (0, [])
  | t :: L =>
      let e := es.getD t.1 defaultEnc
      let r := substL es L
      (t.2 * e.base + r.1, scaleL t.2 e.terms ++ r.2)

/-- Substitution of encodings into a quadratic expression: resulting
constant, linear and quadratic parts over the new variables. -/
def substQ (es : List VarEnc) : QuadExpr → ℚ × LinearExpr × QuadExpr
  | [] => (0, [], [])
  | t :: Q =>
      let ei := es.getD t.1 defaultEnc
      let ej := es.getD t.2.1 defaultEnc
      let r := substQ es Q
      (t.2.2 * ei.base * ej.base + r.1,
       scaleL (t.2.2 * ei.base) ej.terms ++ scaleL (t.2.2 * ej.base) ei.terms ++ r.2.1,
       scaleQ t.2.2 (mulLL ei.terms ej.terms) ++ r.2.2)

namespace IntegerToBinary

/-- Check that a variable can survive the Integer-to-Binary stage: no
continuous variable, and integer variables must have integral bounds. -/
def varOk (v : Variable) : Bool :=
  match v.kind with
  | .continuous => false
  | .integer => v.lb.den == 1 && v.ub.den == 1
  | .binary => true

/-- Modelled from the spec: the Integer-to-Binary `convert` — every bounded
integer variable is replaced by its bounded-coefficient binary expansion,
which is substituted into the objective and all constraints; binary
variables pass through; a continuous variable is an error (the converter
code itself is not under `src/`). -/
def convert (P : Problem) : Except ConvError (Problem × List VarEnc) :=
  if P.vars.all varOk then
    let es := mkEncs P.vars 0
    let oL := substL es P.objective.linear
    let oQ := substQ es P.objective.quadratic
    .ok (⟨(P.vars.map expandVar).flatten,
          ⟨P.objective.sense, P.objective.constant + oL.1 + oQ.1, oL.2 ++ oQ.2.1, oQ.2.2⟩,
          P.constraints.map fun c =>
            ⟨c.name, (substL es c.linear).2, c.sense, c.rhs - (substL es c.linear).1⟩⟩,
         es)
  else .error .unsupportedVariableKind

/-- Modelled from the spec: the Integer-to-Binary `interpret` — each
original variable's value is its encoding's affine value at the given
assignment of the new binary variables, in original variable order. -/
def interpret (es : List VarEnc) (v : List ℚ) : List ℚ := es.map fun e => e.val v

end IntegerToBinary

/-- Block of new-variable values encoding one original variable's value. -/
def varBlock (v : Variable) (q : ℚ) : List ℚ :=
  match v.kind with
  | .integer => (bcDigits (intRange v) ((q - v.lb).num.toNat)).map (fun d : ℕ => (d : ℚ))
  | _ => [q]

/-- Binary encoding of an assignment of the original variables. -/
def encode2 : List Variable → List ℚ → List ℚ
  | [], _ => []
  | v :: vs, x => varBlock v (x.getD 0 0) ++ encode2 vs x.tail

/-- Dot product of two rational lists (shorter list wins). -/
def dotQ : List ℚ → List ℚ → ℚ
  | [], _ => 0
  | _ :: _, [] => 0
  | c :: cs, d :: ds => c * d + dotQ cs ds

theorem evalL_termsFrom_oob {cs : List ℚ} :
    ∀ {off : ℕ} {y : List ℚ}, y.length ≤ off → evalL (termsFrom off cs) y = 0 := by
  induction cs with
  | nil => intro off y _; rfl
  | cons c cs ih =>
      intro off y hy
      show evalL ((off, c) :: termsFrom (off + 1) cs) y = 0
      rw [evalL_cons, List.getD_eq_default _ _ (by simpa using hy), ih (by omega)]
      simp

theorem evalL_termsFrom (cs : List ℚ) :
    ∀ (pre rest : List ℚ), evalL (termsFrom pre.length cs) (pre ++ rest) = dotQ cs rest := by
  induction cs with
  | nil => intro pre rest; rfl
  | cons c cs ih =>
      intro pre rest
      show evalL ((pre.length, c) :: termsFrom (pre.length + 1) cs) (pre ++ rest) = dotQ (c :: cs) rest
      rw [evalL_cons]
      cases rest with
      | nil =>
          rw [List.append_nil, List.getD_eq_default _ _ (by omega),
            evalL_termsFrom_oob (by omega)]
          show c * 0 + 0 = dotQ (c :: cs) []
          simp [dotQ]
      | cons d ds =>
          have hget : (pre ++ d :: ds).getD pre.length 0 = d := by
            rw [List.getD_append_right _ _ _ _ (le_refl _), Nat.sub_self]
            rfl
          have hsplit : pre ++ d :: ds = (pre ++ [d]) ++ ds := by
            rw [List.append_assoc]
            rfl
          have hlen : pre.length + 1 = (pre ++ [d]).length := by
            rw [List.length_append]
            rfl
          rw [hget, hsplit, hlen, ih (pre ++ [d]) ds]
          show c * d + dotQ cs ds = dotQ (c :: cs) (d :: ds)
          rfl

theorem dotQ_append_left {cs blk : List ℚ} (rest : List ℚ) (h : cs.length = blk.length) :
    dotQ cs (blk ++ rest) = dotQ cs blk := by
  induction cs generalizing blk with
  | nil => simp [dotQ]
  | cons c cs ih =>
      cases blk with
      | nil => cases h
      | cons b bs =>
          show c * b + dotQ cs (bs ++ rest) = c * b + dotQ cs bs
          rw [ih (by simpa using h)]

theorem dotQ_cast (cs ds : List ℕ) :
    dotQ (cs.map (fun c : ℕ => (c : ℚ))) (ds.map (fun d : ℕ => (d : ℚ))) = (dotN cs ds : ℚ) := by
  induction cs generalizing ds with
  | nil => simp [dotQ, dotN]
  | cons c cs ih =>
      cases ds with
      | nil => simp [dotQ, dotN]
      | cons d ds =>
          show (c : ℚ) * (d : ℚ) + dotQ (cs.map (fun c : ℕ => (c : ℚ))) (ds.map (fun d : ℕ => (d : ℚ))) =
            ((c * d + dotN cs ds : ℕ) : ℚ)
          rw [ih]
          push_cast
          ring

theorem defaultEnc_val (y : List ℚ) : defaultEnc.val y = 0 := by
  show (0 : ℚ) + evalL (termsFrom 0 []) y = 0
  simp [termsFrom, evalL]

theorem map_val_getD (es : List VarEnc) (y : List ℚ) (i : ℕ) :
    (es.map fun e => e.val y).getD i 0 = (es.getD i defaultEnc).val y := by
  by_cases h : i < es.length
  · rw [List.getD_eq_getElem _ _ (by simpa using h), List.getD_eq_getElem _ _ h,
      List.getElem_map]
  · rw [List.getD_eq_default _ _ (by simpa using h), List.getD_eq_default _ _ (by omega),
      defaultEnc_val]

theorem substL_eval (es : List VarEnc) (L : LinearExpr) (y : List ℚ) :
    (substL es L).1 + evalL (substL es L).2 y =
      evalL L (IntegerToBinary.interpret es y) := by
  induction L with
  | nil => simp [substL, evalL]
  | cons t L ih =>
      show (t.2 * (es.getD t.1 defaultEnc).base + (substL es L).1) +
          evalL (scaleL t.2 (es.getD t.1 defaultEnc).terms ++ (substL es L).2) y =
        evalL (t :: L) (IntegerToBinary.interpret es y)
      rw [evalL_append, evalL_scale, evalL_cons]
      unfold IntegerToBinary.interpret
      rw [map_val_getD]
      rw [← show (substL es L).1 + evalL (substL es L).2 y =
        evalL L (List.map (fun e => e.val y) es) from ih]
      unfold VarEnc.val
      ring

theorem mulRow_eval (a : ℕ × ℚ) (B : LinearExpr) (y : List ℚ) :
    evalQ (B.map fun b => (a.1, b.1, a.2 * b.2)) y =
      a.2 * y.getD a.1 0 * evalL B y := by
  induction B with
  | nil => simp [evalQ, evalL]
  | cons b B ih =>
      rw [List.map_cons, evalQ_cons, evalL_cons, ih]
      show a.2 * b.2 * y.getD a.1 0 * y.getD b.1 0 + _ = _
      ring

theorem mulLL_eval (A B : LinearExpr) (y : List ℚ) :
    evalQ (mulLL A B) y = evalL A y * evalL B y := by
  induction A with
  | nil => simp [mulLL, evalQ, evalL]
  | cons a A ih =>
      show evalQ ((B.map fun b => (a.1, b.1, a.2 * b.2)) ++ mulLL A B) y = _
      rw [evalQ_append, mulRow_eval, ih, evalL_cons]
      ring

theorem substQ_eval (es : List VarEnc) (Q : QuadExpr) (y : List ℚ) :
    (substQ es Q).1 + evalL (substQ es Q).2.1 y + evalQ (substQ es Q).2.2 y =
      evalQ Q (IntegerToBinary.interpret es y) := by
  induction Q with
  | nil => simp [substQ, evalL, evalQ]
  | cons t Q ih =>
      show (t.2.2 * (es.getD t.1 defaultEnc).base * (es.getD t.2.1 defaultEnc).base +
            (substQ es Q).1) +
          evalL (scaleL (t.2.2 * (es.getD t.1 defaultEnc).base) (es.getD t.2.1 defaultEnc).terms ++
            scaleL (t.2.2 * (es.getD t.2.1 defaultEnc).base) (es.getD t.1 defaultEnc).terms ++
            (substQ es Q).2.1) y +
          evalQ (scaleQ t.2.2 (mulLL (es.getD t.1 defaultEnc).terms
            (es.getD t.2.1 defaultEnc).terms) ++ (substQ es Q).2.2) y =
        evalQ (t :: Q) (IntegerToBinary.interpret es y)
      rw [evalL_append, evalL_append, evalL_scale, evalL_scale, evalQ_append, evalQ_scale,
        mulLL_eval, evalQ_cons]
      unfold IntegerToBinary.interpret
      rw [map_val_getD, map_val_getD]
      rw [← show (substQ es Q).1 + evalL (substQ es Q).2.1 y + evalQ (substQ es Q).2.2 y =
        evalQ Q (List.map (fun e => e.val y) es) from ih]
      unfold VarEnc.val
      ring

theorem varBlock_length (v : Variable) (q : ℚ) :
    (varBlock v q).length = (encCoeffs v).length := by
  unfold varBlock encCoeffs
  cases v.kind with
  | integer =>
      rw [List.length_map, List.length_map]
      exact bcDigits_length _ _
  | binary => rfl
  | continuous => rfl

theorem encVal_block {v : Variable} {q : ℚ} (pre rest : List ℚ)
    (hok : IntegerToBinary.varOk v = true)
    (hfe : varFeasAt v q) :
    VarEnc.val ⟨encBase v, encCoeffs v, pre.length⟩ (pre ++ (varBlock v q ++ rest)) = q := by
  unfold VarEnc.val
  show encBase v + evalL (termsFrom pre.length (encCoeffs v)) (pre ++ (varBlock v q ++ rest)) = q
  rw [evalL_termsFrom, dotQ_append_left rest (varBlock_length v q).symm]
  cases hkind : v.kind with
  | continuous =>
      exfalso
      unfold IntegerToBinary.varOk at hok
      rw [hkind] at hok
      exact Bool.false_ne_true hok
  | binary =>
      simp only [encBase, encCoeffs, varBlock, hkind]
      show (0 : ℚ) + ((1 : ℚ) * q + 0) = q
      ring
  | integer =>
      simp only [encBase, encCoeffs, varBlock, hkind]
      unfold IntegerToBinary.varOk at hok
      rw [hkind] at hok
      simp only [Bool.and_eq_true, beq_iff_eq] at hok
      have hq : q.den = 1 := hfe.2.2.2 hkind
      have hd1 : (q - v.lb).den = 1 := den_one_sub hq hok.1
      have hd2 : (v.ub - v.lb).den = 1 := den_one_sub hok.2 hok.1
      obtain ⟨z, hz⟩ := isInt_iff.mp hd1
      obtain ⟨w, hw⟩ := isInt_iff.mp hd2
      have hz0 : 0 ≤ z := by
        have h1 : (0 : ℚ) ≤ q - v.lb := sub_nonneg.mpr hfe.1
        rw [hz] at h1
        exact_mod_cast h1
      have hzw : z ≤ w := by
        have h1 : q - v.lb ≤ v.ub - v.lb := sub_le_sub_right hfe.2.1 _
        rw [hz, hw] at h1
        exact_mod_cast h1
      have hnum1 : (q - v.lb).num = z := by rw [hz]; exact Rat.num_intCast z
      have hnum2 : (v.ub - v.lb).num = w := by rw [hw]; exact Rat.num_intCast w
      have htn : (q - v.lb).num.toNat ≤ intRange v := by
        unfold intRange
        rw [hnum1, hnum2]
        omega
      rw [dotQ_cast, bcDigits_dot htn]
      have hcast : (((q - v.lb).num.toNat : ℕ) : ℚ) = q - v.lb := by
        rw [hnum1, hz]
        exact_mod_cast Int.toNat_of_nonneg hz0
      rw [hcast]
      ring

theorem interp_encode :
    ∀ (vs : List Variable) (x : List ℚ) (pre : List ℚ),
      (∀ v ∈ vs, IntegerToBinary.varOk v = true) →
      List.Forall₂ varFeasAt vs x →
      IntegerToBinary.interpret (mkEncs vs pre.length) (pre ++ encode2 vs x) = x := by
  intro vs
  induction vs with
  | nil =>
      intro x pre _ hfe
      cases hfe
      rfl
  | cons v vs ih =>
      intro x pre hok hfe
      cases hfe with
      | cons hv htail =>
          rename_i x0 x2
          show IntegerToBinary.interpret
            (⟨encBase v, encCoeffs v, pre.length⟩ :: mkEncs vs (pre.length + (encCoeffs v).length))
            (pre ++ encode2 (v :: vs) (x0 :: x2)) = x0 :: x2
          have henc : encode2 (v :: vs) (x0 :: x2) = varBlock v x0 ++ encode2 vs x2 := rfl
          rw [henc]
          unfold IntegerToBinary.interpret
          rw [List.map_cons]
          have hhead := encVal_block (v := v) (q := x0) pre (encode2 vs x2)
            (hok v (List.mem_cons_self v vs)) hv
          have hlen2 : pre.length + (encCoeffs v).length = (pre ++ varBlock v x0).length := by
            rw [List.length_append, varBlock_length]
          have hassoc : pre ++ (varBlock v x0 ++ encode2 vs x2) =
              (pre ++ varBlock v x0) ++ encode2 vs x2 := by
            rw [List.append_assoc]
          have htl := ih x2 (pre ++ varBlock v x0)
            (fun u hu => hok u (List.mem_cons_of_mem v hu)) htail
          unfold IntegerToBinary.interpret at htl
          refine congrArg₂ _ hhead ?_
          rw [hlen2, hassoc]
          exact htl

theorem forall₂_of_getD {α β : Type} {R : α → β → Prop} (da : α) (db : β) :
    ∀ (l₁ : List α) (l₂ : List β), l₁.length = l₂.length →
      (∀ i < l₁.length, R (l₁.getD i da) (l₂.getD i db)) → List.Forall₂ R l₁ l₂ := by
  intro l₁
  induction l₁ with
  | nil =>
      intro l₂ h _
      cases l₂ with
      | nil => exact .nil
      | cons b l₂ => cases h
  | cons a l ih =>
      intro l₂ h hR
      cases l₂ with
      | nil => cases h
      | cons b l₂ =>
          refine .cons ?_ (ih l₂ (by simpa using h) fun i hi => ?_)
          · simpa using hR 0 (by simp)
          · simpa using hR (i + 1) (by simpa using Nat.succ_lt_succ hi)

theorem feas_forall₂ {P : Problem} {x : List ℚ} (hf : Feasible P x) :
    List.Forall₂ varFeasAt P.vars x :=
  forall₂_of_getD defaultVar 0 P.vars x hf.1.symm hf.2.1

theorem varBlock_01 {v : Variable} {q : ℚ}
    (hok : IntegerToBinary.varOk v = true) (hfe : varFeasAt v q) :
    ∀ r ∈ varBlock v q, r = 0 ∨ r = 1 := by
  intro r hr
  cases hkind : v.kind with
  | continuous =>
      exfalso
      unfold IntegerToBinary.varOk at hok
      rw [hkind] at hok
      exact Bool.false_ne_true hok
  | binary =>
      simp only [varBlock, hkind] at hr
      rcases List.mem_singleton.mp hr with rfl
      exact hfe.2.2.1 hkind
  | integer =>
      simp only [varBlock, hkind] at hr
      obtain ⟨d2, hd2, hres⟩ := List.mem_map.mp hr
      have hle := bcDigits_le_one _ _ d2 hd2
      interval_cases d2
      · exact Or.inl (by exact_mod_cast hres.symm)
      · exact Or.inr (by exact_mod_cast hres.symm)

theorem encode2_01 :
    ∀ (vs : List Variable) (x : List ℚ),
      (∀ v ∈ vs, IntegerToBinary.varOk v = true) →
      List.Forall₂ varFeasAt vs x →
      ∀ r ∈ encode2 vs x, r = 0 ∨ r = 1 := by
  intro vs
  induction vs with
  | nil =>
      intro x _ hfe r hr
      cases hfe
      cases hr
  | cons v vs ih =>
      intro x hok hfe r hr
      cases hfe with
      | cons hv htail =>
          rename_i x0 x2
          have henc : encode2 (v :: vs) (x0 :: x2) = varBlock v x0 ++ encode2 vs x2 := rfl
          rw [henc] at hr
          rcases List.mem_append.mp hr with h1 | h1
          · exact varBlock_01 (hok v (List.mem_cons_self v vs)) hv r h1
          · exact ih x2 (fun u hu => hok u (List.mem_cons_of_mem v hu)) htail r h1

theorem entries01_getD {y : List ℚ} (h : ∀ r ∈ y, r = 0 ∨ r = 1) (i : ℕ) :
    y.getD i 0 * y.getD i 0 = y.getD i 0 := by
  by_cases hi : i < y.length
  · have hmem : y.getD i 0 ∈ y := by
      rw [List.getD_eq_getElem _ _ hi]
      exact List.getElem_mem hi
    rcases h _ hmem with h0 | h0 <;> rw [h0] <;> ring
  · rw [List.getD_eq_default _ _ (by omega)]
    ring

theorem cmp_shift (s : CmpSense) (a b k : ℚ) :
    cmpHolds s (a - k) (b - k) ↔ cmpHolds s a b := by
  cases s with
  | le => exact sub_le_sub_iff_right k
  | ge => exact sub_le_sub_iff_right k
  | eq =>
      constructor
      · intro h
        have h2 : a - k = b - k := h
        show a = b
        linarith
      · intro h
        have h2 : a = b := h
        show a - k = b - k
        rw [h2]

/-- Sign of the penalty term: +1 for a minimization problem, -1 for a
maximization problem. -/
def penSign (s : ObjSense) : ℚ :=
  match s with
  | .minimize => 1
  | .maximize => -1

/-- Move the diagonal terms of a quadratic expression into a linear
expression using the binary identity `x * x = x`. -/
def foldDiag : QuadExpr → LinearExpr × QuadExpr
  | [] => ([], [])
  | t :: Q =>
      let r := foldDiag Q
      if t.1 = t.2.1 then ((t.1, t.2.2) :: r.1, r.2) else (r.1, t :: r.2)

/-- Expanded penalty `M2 * (rhs - linear)^2` of one equality constraint:
constant, linear and quadratic contributions, diagonal terms folded. -/
def penaltyParts (M2 : ℚ) (c : Constraint) : ℚ × LinearExpr × QuadExpr :=
  let f := foldDiag (mulLL c.linear c.linear)
  (M2 * c.rhs * c.rhs,
   scaleL (-2 * M2 * c.rhs) c.linear ++ scaleL M2 f.1,
   scaleQ M2 f.2)

/-- Accumulated penalty contributions of a constraint list. -/
def penaltyAll (M2 : ℚ) : List Constraint → ℚ × LinearExpr × QuadExpr
  | [] => (0, [], [])
  | c :: cs =>
      let p := penaltyParts M2 c
      let r := penaltyAll M2 cs
      (p.1 + r.1, p.2.1 ++ r.2.1, p.2.2 ++ r.2.2)

/-- Sum of squared residuals of a constraint list at an assignment. -/
def residSq (cs : List Constraint) (y : List ℚ) : ℚ :=
  (cs.map fun c => (c.rhs - evalL c.linear y) ^ 2).sum

namespace LinearEqualityToPenalty

/-- Default penalty factor used when the caller configures none. -/
def defaultPenalty : ℚ := 1e5

/-- Modelled from the spec: the Linear-Equality-to-Penalty `convert` — every
input constraint must be a linear equality and every variable binary; each
constraint becomes the objective term `sign * M * (rhs - linear)^2`,
expanded with the binary identity `x * x = x`, with `M` the configured
penalty factor or 1e5 by default (the converter code itself is not under
`src/`). -/
def convert (penalty : Option ℚ) (P : Problem) : Except ConvError (Problem × ℕ) :=
  if ¬ (P.constraints.all fun c => c.sense == .eq) then .error .preconditionViolated
  else if ¬ (P.vars.all fun v => v.kind == .binary) then .error .unsupportedVariableKind
  else
    let M2 := penSign P.objective.sense * penalty.getD defaultPenalty
    let p := penaltyAll M2 P.constraints
    .ok (⟨P.vars,
          ⟨P.objective.sense, P.objective.constant + p.1,
           P.objective.linear ++ p.2.1, P.objective.quadratic ++ p.2.2⟩,
          []⟩,
         P.vars.length)

/-- Modelled from the spec: the Linear-Equality-to-Penalty `interpret` is
the identity (no variables are added or removed). -/
def interpret (v : List ℚ) : List ℚ := v

end LinearEqualityToPenalty

theorem foldDiag_eval {y : List ℚ} (hy : ∀ i, y.getD i 0 * y.getD i 0 = y.getD i 0)
    (Q : QuadExpr) :
    evalL (foldDiag Q).1 y + evalQ (foldDiag Q).2 y = evalQ Q y := by
  induction Q with
  | nil => simp [foldDiag, evalL, evalQ]
  | cons t Q ih =>
      by_cases ht : t.1 = t.2.1
      · have hfd : foldDiag (t :: Q) = ((t.1, t.2.2) :: (foldDiag Q).1, (foldDiag Q).2) := by
          simp only [foldDiag, if_pos ht]
        rw [hfd]
        show evalL ((t.1, t.2.2) :: (foldDiag Q).1) y + evalQ (foldDiag Q).2 y = evalQ (t :: Q) y
        rw [evalL_cons, evalQ_cons, ← ht]
        have hsq : t.2.2 * y.getD t.1 0 * y.getD t.1 0 = t.2.2 * y.getD t.1 0 := by
          rw [mul_assoc, hy t.1]
        rw [hsq]
        show t.2.2 * y.getD t.1 0 + evalL (foldDiag Q).1 y + evalQ (foldDiag Q).2 y =
          t.2.2 * y.getD t.1 0 + evalQ Q y
        rw [add_assoc, ih]
      · have hfd : foldDiag (t :: Q) = ((foldDiag Q).1, t :: (foldDiag Q).2) := by
          simp only [foldDiag, if_neg ht]
        rw [hfd]
        show evalL (foldDiag Q).1 y + evalQ (t :: (foldDiag Q).2) y = evalQ (t :: Q) y
        rw [evalQ_cons, evalQ_cons, ← ih]
        ring

theorem penaltyParts_eval {y : List ℚ} (hy : ∀ i, y.getD i 0 * y.getD i 0 = y.getD i 0)
    (M2 : ℚ) (c : Constraint) :
    (penaltyParts M2 c).1 + evalL (penaltyParts M2 c).2.1 y +
      evalQ (penaltyParts M2 c).2.2 y =
      M2 * (c.rhs - evalL c.linear y) ^ 2 := by
  show M2 * c.rhs * c.rhs +
      evalL (scaleL (-2 * M2 * c.rhs) c.linear ++
        scaleL M2 (foldDiag (mulLL c.linear c.linear)).1) y +
      evalQ (scaleQ M2 (foldDiag (mulLL c.linear c.linear)).2) y =
    M2 * (c.rhs - evalL c.linear y) ^ 2
  rw [evalL_append, evalL_scale, evalL_scale, evalQ_scale]
  have hfold := foldDiag_eval hy (mulLL c.linear c.linear)
  have hmul := mulLL_eval c.linear c.linear y
  linear_combination M2 * hfold + M2 * hmul

theorem penaltyAll_eval {y : List ℚ} (hy : ∀ i, y.getD i 0 * y.getD i 0 = y.getD i 0)
    (M2 : ℚ) (cs : List Constraint) :
    (penaltyAll M2 cs).1 + evalL (penaltyAll M2 cs).2.1 y +
      evalQ (penaltyAll M2 cs).2.2 y = M2 * residSq cs y := by
  induction cs with
  | nil => simp [penaltyAll, residSq, evalL, evalQ]
  | cons c cs ih =>
      show ((penaltyParts M2 c).1 + (penaltyAll M2 cs).1) +
          evalL ((penaltyParts M2 c).2.1 ++ (penaltyAll M2 cs).2.1) y +
          evalQ ((penaltyParts M2 c).2.2 ++ (penaltyAll M2 cs).2.2) y =
        M2 * residSq (c :: cs) y
      rw [evalL_append, evalQ_append]
      have hc := penaltyParts_eval hy M2 c
      have hrs : residSq (c :: cs) y = (c.rhs - evalL c.linear y) ^ 2 + residSq cs y := by
        unfold residSq
        rw [List.map_cons, List.sum_cons]
      rw [hrs]
      linarith [hc, ih]

theorem residSq_nonneg (cs : List Constraint) (y : List ℚ) : 0 ≤ residSq cs y := by
  induction cs with
  | nil => simp [residSq]
  | cons c cs ih =>
      have h : residSq (c :: cs) y = (c.rhs - evalL c.linear y) ^ 2 + residSq cs y := by
        unfold residSq
        rw [List.map_cons, List.sum_cons]
      rw [h]
      have hsq := sq_nonneg (c.rhs - evalL c.linear y)
      linarith

theorem convert2_ok {P Q : Problem} {es : List VarEnc}
    (h : IntegerToBinary.convert P = .ok (Q, es)) :
    (∀ v ∈ P.vars, IntegerToBinary.varOk v = true) ∧
      es = mkEncs P.vars 0 ∧
      Q = ⟨(P.vars.map expandVar).flatten,
           ⟨P.objective.sense,
            P.objective.constant + (substL es P.objective.linear).1 +
              (substQ es P.objective.quadratic).1,
            (substL es P.objective.linear).2 ++ (substQ es P.objective.quadratic).2.1,
            (substQ es P.objective.quadratic).2.2⟩,
           P.constraints.map fun c =>
             ⟨c.name, (substL es c.linear).2, c.sense, c.rhs - (substL es c.linear).1⟩⟩ := by
  unfold IntegerToBinary.convert at h
  by_cases hall : P.vars.all IntegerToBinary.varOk = true
  · rw [if_pos hall] at h
    simp only [Except.ok.injEq, Prod.mk.injEq] at h
    obtain ⟨hQ, hes⟩ := h
    refine ⟨fun v hv => List.all_eq_true.mp hall v hv, hes.symm, ?_⟩
    rw [← hes, ← hQ]
  · rw [if_neg hall] at h
    exact Except.noConfusion h

theorem convert2_objValue {P Q : Problem} {es : List VarEnc}
    (h : IntegerToBinary.convert P = .ok (Q, es)) (y : List ℚ) :
    objValue Q.objective y = objValue P.objective (IntegerToBinary.interpret es y) := by
  obtain ⟨_, _, hQ⟩ := convert2_ok h
  rw [hQ]
  show P.objective.constant + (substL es P.objective.linear).1 +
      (substQ es P.objective.quadratic).1 +
      evalL ((substL es P.objective.linear).2 ++ (substQ es P.objective.quadratic).2.1) y +
      evalQ (substQ es P.objective.quadratic).2.2 y =
    objValue P.objective (IntegerToBinary.interpret es y)
  rw [evalL_append]
  have h1 := substL_eval es P.objective.linear y
  have h2 := substQ_eval es P.objective.quadratic y
  unfold objValue
  linarith

theorem convert2_sat {P Q : Problem} {es : List VarEnc}
    (h : IntegerToBinary.convert P = .ok (Q, es)) (y : List ℚ)
    (hs : ∀ c ∈ P.constraints, satisfiedAt c (IntegerToBinary.interpret es y)) :
    ∀ c ∈ Q.constraints, satisfiedAt c y := by
  obtain ⟨_, _, hQ⟩ := convert2_ok h
  intro c hc
  rw [hQ] at hc
  have hc2 : c ∈ P.constraints.map fun c =>
      (⟨c.name, (substL es c.linear).2, c.sense, c.rhs - (substL es c.linear).1⟩ : Constraint) := hc
  obtain ⟨c0, hc0, rfl⟩ := List.mem_map.mp hc2
  have hsat := hs c0 hc0
  show cmpHolds c0.sense (evalL (substL es c0.linear).2 y) (c0.rhs - (substL es c0.linear).1)
  have hv : evalL (substL es c0.linear).2 y =
      evalL c0.linear (IntegerToBinary.interpret es y) - (substL es c0.linear).1 := by
    have := substL_eval es c0.linear y
    linarith
  rw [hv]
  exact (cmp_shift _ _ _ _).mpr hsat

theorem convert3_ok {pen : Option ℚ} {P Q : Problem} {n3 : ℕ}
    (h : LinearEqualityToPenalty.convert pen P = .ok (Q, n3)) :
    (∀ c ∈ P.constraints, c.sense = .eq) ∧
      (∀ v ∈ P.vars, v.kind = .binary) ∧
      n3 = P.vars.length ∧
      Q = ⟨P.vars,
           ⟨P.objective.sense,
            P.objective.constant +
              (penaltyAll (penSign P.objective.sense *
                pen.getD LinearEqualityToPenalty.defaultPenalty) P.constraints).1,
            P.objective.linear ++
              (penaltyAll (penSign P.objective.sense *
                pen.getD LinearEqualityToPenalty.defaultPenalty) P.constraints).2.1,
            P.objective.quadratic ++
              (penaltyAll (penSign P.objective.sense *
                pen.getD LinearEqualityToPenalty.defaultPenalty) P.constraints).2.2⟩,
           []⟩ := by
  unfold LinearEqualityToPenalty.convert at h
  by_cases hc : P.constraints.all (fun c => c.sense == .eq) = true
  · rw [if_neg (not_not_intro hc)] at h
    by_cases hv : P.vars.all (fun v => v.kind == .binary) = true
    · rw [if_neg (not_not_intro hv)] at h
      simp only [Except.ok.injEq, Prod.mk.injEq] at h
      obtain ⟨hQ, hn⟩ := h
      refine ⟨fun c hcc => beq_iff_eq.mp (List.all_eq_true.mp hc c hcc),
        fun v hvv => beq_iff_eq.mp (List.all_eq_true.mp hv v hvv), hn.symm, hQ.symm⟩
    · rw [if_pos hv] at h
      exact Except.noConfusion h
  · rw [if_pos hc] at h
    exact Except.noConfusion h

theorem convert3_objValue {pen : Option ℚ} {P Q : Problem} {n3 : ℕ}
    (h : LinearEqualityToPenalty.convert pen P = .ok (Q, n3)) (y : List ℚ)
    (hy : ∀ i, y.getD i 0 * y.getD i 0 = y.getD i 0) :
    objValue Q.objective y = objValue P.objective y +
      penSign P.objective.sense * pen.getD LinearEqualityToPenalty.defaultPenalty *
        residSq P.constraints y := by
  obtain ⟨_, _, _, hQ⟩ := convert3_ok h
  rw [hQ]
  show P.objective.constant +
      (penaltyAll (penSign P.objective.sense *
        pen.getD LinearEqualityToPenalty.defaultPenalty) P.constraints).1 +
      evalL (P.objective.linear ++
        (penaltyAll (penSign P.objective.sense *
          pen.getD LinearEqualityToPenalty.defaultPenalty) P.constraints).2.1) y +
      evalQ (P.objective.quadratic ++
        (penaltyAll (penSign P.objective.sense *
          pen.getD LinearEqualityToPenalty.defaultPenalty) P.constraints).2.2) y = _
  rw [evalL_append, evalQ_append]
  have hp := penaltyAll_eval hy
    (penSign P.objective.sense * pen.getD LinearEqualityToPenalty.defaultPenalty) P.constraints
  unfold objValue
  linarith

theorem residSq_eq_zero {cs : List Constraint} {y : List ℚ}
    (h : ∀ c ∈ cs, evalL c.linear y = c.rhs) : residSq cs y = 0 := by
  induction cs with
  | nil => rfl
  | cons c cs ih =>
      have hh : residSq (c :: cs) y = (c.rhs - evalL c.linear y) ^ 2 + residSq cs y := by
        unfold residSq
        rw [List.map_cons, List.sum_cons]
      rw [hh, h c (List.mem_cons_self c cs), ih fun d hd => h d (List.mem_cons_of_mem c hd)]
      ring

theorem residSq_pos {cs : List Constraint} {y : List ℚ} {c0 : Constraint}
    (hc0 : c0 ∈ cs) (hv : evalL c0.linear y ≠ c0.rhs) : 0 < residSq cs y := by
  induction cs with
  | nil => cases hc0
  | cons c cs ih =>
      have hh : residSq (c :: cs) y = (c.rhs - evalL c.linear y) ^ 2 + residSq cs y := by
        unfold residSq
        rw [List.map_cons, List.sum_cons]
      rw [hh]
      rcases List.mem_cons.mp hc0 with rfl | hmem
      · have h1 : (c0.rhs - evalL c0.linear y) ^ 2 > 0 := by
          have h2 : c0.rhs - evalL c0.linear y ≠ 0 := fun hz => hv (by linarith [sub_eq_zero.mp hz])
          positivity
        have h3 := residSq_nonneg cs y
        linarith
      · have h1 := ih hmem
        have h2 := sq_nonneg (c.rhs - evalL c.linear y)
        linarith

/-- State the orchestrating pipeline remembers to invert a conversion:
original variable count, integer-encoding list, final variable count. -/
structure PipeState where
  n1 : ℕ
  es : List VarEnc
  nFinal : ℕ
deriving DecidableEq, Repr

/-- Modelled from the spec: the fixed pipeline composition
Inequality-to-Equality, then Integer-to-Binary, then
Linear-Equality-to-Penalty, propagating the first stage error (the
orchestrator code itself is not under `src/`). -/
def pipelineConvert (pen : Option ℚ) (P : Problem) : Except ConvError (Problem × PipeState) :=
  let r1 := InequalityToEquality.convert P
  match IntegerToBinary.convert r1.1 with
  | .error e => .error e
  | .ok (P2, es) =>
      match LinearEqualityToPenalty.convert pen P2 with
      | .error e => .error e
      | .ok (P3, _) => .ok (P3, ⟨r1.2, es, P3.vars.length⟩)

/-- Modelled from the spec: the reverse interpretation chain, threading a
vector backward through each stage in reverse order. -/
def pipelineInterpret (st : PipeState) (v : List ℚ) : List ℚ :=
  InequalityToEquality.interpret st.n1
    (IntegerToBinary.interpret st.es (LinearEqualityToPenalty.interpret v))

/-- Canonical binary encoding of an assignment of the original variables:
append the forced slack values, then the binary digit blocks. -/
def encodePipe (P : Problem) (x : List ℚ) : List ℚ :=
  encode2 (InequalityToEquality.convert P).1.vars (encode1 P x)

/-- Modelled from the spec: the QuadraticProgramToQubo orchestrator facade
with its configurable penalty factor and the mutable state of the most
recent successful `convert` (the orchestrator code itself is not under
`src/`). -/
structure QuadraticProgramToQubo where
  penalty : Option ℚ
  state : Option PipeState
deriving DecidableEq, Repr

/-- Modelled from the spec: the orchestrator `convert` — run the pipeline
and remember the inversion state. -/
def QuadraticProgramToQubo.convert (o : QuadraticProgramToQubo) (P : Problem) :
    Except ConvError (Problem × QuadraticProgramToQubo) :=
  match pipelineConvert o.penalty P with
  | .error e => .error e
  | .ok (Q, st) => .ok (Q, ⟨o.penalty, some st⟩)

/-- Modelled from the spec: the orchestrator `interpret` — a configuration
error before any successful convert, a dimension error when the vector
length disagrees with the final problem's variable count, otherwise the
chained stage interpretation. -/
def QuadraticProgramToQubo.interpret (o : QuadraticProgramToQubo) (v : List ℚ) :
    Except ConvError (List ℚ) :=
  match o.state with
  | none => .error .stateNotInitialized
  | some st =>
      if v.length = st.nFinal then .ok (pipelineInterpret st v)
      else .error .dimensionMismatch

theorem pipeline_round_trip {pen : Option ℚ} {P Q : Problem} {st : PipeState} {x : List ℚ}
    (hw : Wf P) (hf : Feasible P x)
    (h : pipelineConvert pen P = .ok (Q, st)) :
    objValue Q.objective (encodePipe P x) = objValue P.objective x ∧
      pipelineInterpret st (encodePipe P x) = x := by
  simp only [pipelineConvert] at h
  cases h2 : IntegerToBinary.convert (InequalityToEquality.convert P).1 with
  | error e =>
      rw [h2] at h
      exact Except.noConfusion h
  | ok pr =>
      obtain ⟨P2, es⟩ := pr
      simp only [h2] at h
      cases h3 : LinearEqualityToPenalty.convert pen P2 with
      | error e =>
          simp only [h3] at h
          exact Except.noConfusion h
      | ok pr3 =>
          obtain ⟨P3, n3⟩ := pr3
          simp only [h3] at h
          simp only [Except.ok.injEq, Prod.mk.injEq] at h
          obtain ⟨hQ3, hst⟩ := h
          obtain ⟨hFeas1, hobj1, hint1⟩ := stage1_spec hw hf
          obtain ⟨hok2, hes, _⟩ := convert2_ok h2
          have hfor : List.Forall₂ varFeasAt (InequalityToEquality.convert P).1.vars
              (encode1 P x) := feas_forall₂ hFeas1
          have hinterp2 : IntegerToBinary.interpret es (encodePipe P x) = encode1 P x := by
            rw [hes]
            exact interp_encode (InequalityToEquality.convert P).1.vars (encode1 P x) []
              hok2 hfor
          have hy01 := encode2_01 (InequalityToEquality.convert P).1.vars (encode1 P x)
            hok2 hfor
          have hysq := entries01_getD hy01
          have hobj2 : objValue P2.objective (encodePipe P x) =
              objValue (InequalityToEquality.convert P).1.objective (encode1 P x) := by
            rw [convert2_objValue h2 (encodePipe P x), hinterp2]
          have hsat2 : ∀ c ∈ P2.constraints, satisfiedAt c (encodePipe P x) := by
            refine convert2_sat h2 (encodePipe P x) ?_
            rw [hinterp2]
            exact hFeas1.2.2
          obtain ⟨hceq, _, _, _⟩ := convert3_ok h3
          have hres0 : residSq P2.constraints (encodePipe P x) = 0 := by
            refine residSq_eq_zero fun c hc => ?_
            have hsc := hsat2 c hc
            unfold satisfiedAt at hsc
            rw [hceq c hc] at hsc
            exact hsc
          have hobj3 := convert3_objValue h3 (encodePipe P x) hysq
          constructor
          · rw [← hQ3, hobj3, hres0, hobj2, hobj1]
            ring
          · rw [← hst]
            show InequalityToEquality.interpret (InequalityToEquality.convert P).2
              (IntegerToBinary.interpret es
                (LinearEqualityToPenalty.interpret (encodePipe P x))) = x
            have hid : LinearEqualityToPenalty.interpret (encodePipe P x) = encodePipe P x := rfl
            rw [hid, hinterp2]
            exact hint1

theorem getD_drop {α : Type} (d : α) :
    ∀ (l : List α) (n m : ℕ), (l.drop n).getD m d = l.getD (n + m) d := by
  intro l
  induction l with
  | nil =>
      intro n m
      rw [List.drop_nil, List.getD_nil, List.getD_nil]
  | cons a l ih =>
      intro n m
      cases n with
      | zero => rw [List.drop_zero, Nat.zero_add]
      | succ n =>
          show (l.drop n).getD m d = (a :: l).getD (n + 1 + m) d
          rw [ih n m, show n + 1 + m = (n + m) + 1 by omega, List.getD_cons_succ]

theorem getD_take {α : Type} (d : α) :
    ∀ (l : List α) (n i : ℕ), i < n → (l.take n).getD i d = l.getD i d := by
  intro l
  induction l with
  | nil => intro n i _; rw [List.take_nil]
  | cons a l ih =>
      intro n i hi
      cases n with
      | zero => omega
      | succ n =>
          show ((a :: l).take (n + 1)).getD i d = (a :: l).getD i d
          rw [List.take_succ_cons]
          cases i with
          | zero => rfl
          | succ i =>
              rw [List.getD_cons_succ, List.getD_cons_succ]
              exact ih n i (by omega)

theorem dotQ_single (w : List ℚ) : dotQ [1] w = w.getD 0 0 := by
  cases w with
  | nil => rfl
  | cons d ds =>
      show (1 : ℚ) * d + dotQ [] ds = d
      rw [show dotQ [] ds = 0 from rfl]
      ring

theorem dotQ_nil_right (cs : List ℚ) : dotQ cs [] = 0 := by
  cases cs <;> rfl

theorem evalL_termsFrom_drop (cs : List ℚ) (off : ℕ) (v : List ℚ) :
    evalL (termsFrom off cs) v = dotQ cs (v.drop off) := by
  by_cases hoff : off ≤ v.length
  · have hsplit : v = v.take off ++ v.drop off := (List.take_append_drop off v).symm
    have hlen : (v.take off).length = off := by
      rw [List.length_take]
      omega
    calc evalL (termsFrom off cs) v
        = evalL (termsFrom (v.take off).length cs) (v.take off ++ v.drop off) := by
          rw [hlen, ← hsplit]
      _ = dotQ cs (v.drop off) := evalL_termsFrom cs (v.take off) (v.drop off)
  · rw [List.drop_eq_nil_of_le (by omega), dotQ_nil_right]
    exact evalL_termsFrom_oob (by omega)

theorem mkEncs_length : ∀ (vs : List Variable) (off : ℕ), (mkEncs vs off).length = vs.length := by
  intro vs
  induction vs with
  | nil => intro off; rfl
  | cons v vs ih =>
      intro off
      show (mkEncs vs (off + (encCoeffs v).length)).length + 1 = vs.length + 1
      rw [ih]

/-- Offset of the binary block of the `i`-th original variable. -/
def blockOffset (vs : List Variable) (i : ℕ) : ℕ :=
  ((vs.take i).map fun w => (encCoeffs w).length).sum

theorem mkEncs_getD :
    ∀ (vs : List Variable) (off i : ℕ), i < vs.length →
      (mkEncs vs off).getD i defaultEnc =
        ⟨encBase (vs.getD i defaultVar), encCoeffs (vs.getD i defaultVar),
         off + blockOffset vs i⟩ := by
  intro vs
  induction vs with
  | nil => intro off i hi; cases hi
  | cons v vs ih =>
      intro off i hi
      cases i with
      | zero =>
          show (⟨encBase v, encCoeffs v, off⟩ : VarEnc) = _
          have hb : blockOffset (v :: vs) 0 = 0 := rfl
          rw [hb]
          rfl
      | succ i =>
          show (mkEncs vs (off + (encCoeffs v).length)).getD i defaultEnc = _
          rw [ih (off + (encCoeffs v).length) i (by simpa using hi)]
          have hb : blockOffset (v :: vs) (i + 1) =
              (encCoeffs v).length + blockOffset vs i := by
            show ((v :: vs.take i).map fun w => (encCoeffs w).length).sum = _
            rw [List.map_cons, List.sum_cons]
            rfl
          rw [hb]
          have : off + (encCoeffs v).length + blockOffset vs i =
              off + ((encCoeffs v).length + blockOffset vs i) := by omega
          rw [this]
          rfl

/-- Number of slack-introducing constraints among the first `j`. -/
def slacksBefore (cs : List Constraint) (j : ℕ) : ℕ :=
  ((cs.take j).filter fun c => !(c.sense == .eq)).length

theorem slacksBefore_zero (cs : List Constraint) : slacksBefore cs 0 = 0 := rfl

theorem slacksBefore_succ_eq {c : Constraint} (hc : c.sense = .eq) (cs : List Constraint)
    (j : ℕ) : slacksBefore (c :: cs) (j + 1) = slacksBefore cs j := by
  unfold slacksBefore
  rw [List.take_succ_cons, List.filter_cons]
  rw [show (!(c.sense == CmpSense.eq)) = false by rw [hc]; rfl]
  simp

theorem slacksBefore_succ_ne {c : Constraint} (hc : c.sense ≠ .eq) (cs : List Constraint)
    (j : ℕ) : slacksBefore (c :: cs) (j + 1) = slacksBefore cs j + 1 := by
  unfold slacksBefore
  rw [List.take_succ_cons, List.filter_cons]
  rw [show (!(c.sense == CmpSense.eq)) = true by
    cases hcs : c.sense
    · rfl
    · rfl
    · exact absurd hcs hc]
  simp [Nat.add_comm]

instance : Inhabited Constraint := ⟨⟨"", [], .eq, 0⟩⟩

instance : Inhabited Variable := ⟨defaultVar⟩

theorem conv1C_spec (vars : List Variable) (n : ℕ) :
    ∀ (cs : List Constraint) (k j : ℕ), j < cs.length →
      ((cs.getD j default).sense = .eq →
        (conv1C vars n cs k).1.getD j default = cs.getD j default) ∧
      ((cs.getD j default).sense = .le →
        (conv1C vars n cs k).1.getD j default =
          ⟨(cs.getD j default).name,
           (cs.getD j default).linear ++ [(n + k + slacksBefore cs j, 1)], .eq,
           leRhs vars (cs.getD j default)⟩ ∧
        (conv1C vars n cs k).2.getD (slacksBefore cs j) default =
          ⟨(cs.getD j default).name ++ "@int_slack", slackKind vars (cs.getD j default), 0,
           leRhs vars (cs.getD j default) - exprLo vars (cs.getD j default).linear⟩) ∧
      ((cs.getD j default).sense = .ge →
        (conv1C vars n cs k).1.getD j default =
          ⟨(cs.getD j default).name,
           (cs.getD j default).linear ++ [(n + k + slacksBefore cs j, -1)], .eq,
           geRhs vars (cs.getD j default)⟩ ∧
        (conv1C vars n cs k).2.getD (slacksBefore cs j) default =
          ⟨(cs.getD j default).name ++ "@int_slack", slackKind vars (cs.getD j default), 0,
           exprHi vars (cs.getD j default).linear - geRhs vars (cs.getD j default)⟩) := by
  intro cs
  induction cs with
  | nil => intro k j hj; cases hj
  | cons c cs ih =>
      intro k j hj
      cases j with
      | zero =>
          rw [List.getD_cons_zero, slacksBefore_zero, Nat.add_zero]
          refine ⟨fun hc => ?_, fun hc => ?_, fun hc => ?_⟩
          · simp only [conv1C, hc]
            rw [List.getD_cons_zero]
          · simp only [conv1C, hc]
            rw [List.getD_cons_zero, List.getD_cons_zero]
            exact ⟨rfl, rfl⟩
          · simp only [conv1C, hc]
            rw [List.getD_cons_zero, List.getD_cons_zero]
            exact ⟨rfl, rfl⟩
      | succ j =>
          have hj2 : j < cs.length := by simpa using hj
          rw [List.getD_cons_succ]
          cases hcs : c.sense with
          | eq =>
              rw [slacksBefore_succ_eq hcs]
              have hconv1 : (conv1C vars n (c :: cs) k).1 = c :: (conv1C vars n cs k).1 := by
                simp only [conv1C, hcs]
              have hconv2 : (conv1C vars n (c :: cs) k).2 = (conv1C vars n cs k).2 := by
                simp only [conv1C, hcs]
              rw [hconv1, hconv2, List.getD_cons_succ]
              exact ih k j hj2
          | le =>
              rw [slacksBefore_succ_ne (by rw [hcs]; intro hcon; cases hcon)]
              have hconv1 : (conv1C vars n (c :: cs) k).1 =
                  (⟨c.name, c.linear ++ [(n + k, 1)], .eq, leRhs vars c⟩ : Constraint) ::
                    (conv1C vars n cs (k + 1)).1 := by
                simp only [conv1C, hcs]
              have hconv2 : (conv1C vars n (c :: cs) k).2 =
                  (⟨c.name ++ "@int_slack", slackKind vars c, 0,
                    leRhs vars c - exprLo vars c.linear⟩ : Variable) ::
                    (conv1C vars n cs (k + 1)).2 := by
                simp only [conv1C, hcs]
              rw [hconv1, hconv2, List.getD_cons_succ, List.getD_cons_succ]
              have hidx : n + k + (slacksBefore cs j + 1) = n + (k + 1) + slacksBefore cs j := by
                omega
              rw [hidx]
              exact ih (k + 1) j hj2
          | ge =>
              rw [slacksBefore_succ_ne (by rw [hcs]; intro hcon; cases hcon)]
              have hconv1 : (conv1C vars n (c :: cs) k).1 =
                  (⟨c.name, c.linear ++ [(n + k, -1)], .eq, geRhs vars c⟩ : Constraint) ::
                    (conv1C vars n cs (k + 1)).1 := by
                simp only [conv1C, hcs]
              have hconv2 : (conv1C vars n (c :: cs) k).2 =
                  (⟨c.name ++ "@int_slack", slackKind vars c, 0,
                    exprHi vars c.linear - geRhs vars c⟩ : Variable) ::
                    (conv1C vars n cs (k + 1)).2 := by
                simp only [conv1C, hcs]
              rw [hconv1, hconv2, List.getD_cons_succ, List.getD_cons_succ]
              have hidx : n + k + (slacksBefore cs j + 1) = n + (k + 1) + slacksBefore cs j := by
                omega
              rw [hidx]
              exact ih (k + 1) j hj2

/-- Documented example problem: maximize `3x + 2y + z` subject to
`x + y + z ≤ 5.5`, `x + y + z ≥ 2.5`, with `x, y` binary and `z ∈ [0, 7]`. -/
def exP : Problem :=
  ⟨[⟨"x", .binary, 0, 1⟩, ⟨"y", .binary, 0, 1⟩, ⟨"z", .integer, 0, 7⟩],
   ⟨.maximize, 0, [(0, 3), (1, 2), (2, 1)], []⟩,
   [⟨"xyz_leq", [(0, 1), (1, 1), (2, 1)], .le, 11 / 2⟩,
    ⟨"xyz_geq", [(0, 1), (1, 1), (2, 1)], .ge, 5 / 2⟩]⟩

/-- Converted QUBO of the documented example. -/
def exQ : Problem :=
  match pipelineConvert none exP with
  | .ok (q, _) => q
  | .error _ => default

/-- Pipeline state of the documented example conversion. -/
def exSt : PipeState :=
  match pipelineConvert none exP with
  | .ok (_, st) => st
  | .error _ => ⟨0, [], 0⟩

/-- Optimal solution of the converted documented example: the unique binary
encoding of `x = 1, y = 1, z = 3` with slacks `0` and `2`. -/
def exV11 : List ℚ := [1, 1, 1, 1, 0, 0, 0, 0, 0, 1, 0]

/-- Output of the Inequality-to-Equality stage on the documented example. -/
def exP1 : Problem := (InequalityToEquality.convert exP).1

/-- Integer-to-Binary encoding state of the documented example. -/
def exEs2 : List VarEnc :=
  match IntegerToBinary.convert exP1 with
  | .ok (_, es) => es
  | .error _ => []

/-- C1: round-trip of the full conversion pipeline — for every well-formed
problem and every feasible assignment, converting through
Inequality-to-Equality, Integer-to-Binary and Linear-Equality-to-Penalty
and evaluating the converted objective at the binary encoding of the
assignment yields the original objective value, and threading the encoding
backward through each stage's interpret in reverse order recovers exactly
the assignment; in the documented example, interpreting the converted
optimum returns `[1, 1, 3]`. -/
theorem C1_round_trip :
    (∀ (pen : Option ℚ) (P Q : Problem) (st : PipeState) (x : List ℚ),
        Wf P → Feasible P x → pipelineConvert pen P = .ok (Q, st) →
        objValue Q.objective (encodePipe P x) = objValue P.objective x ∧
          pipelineInterpret st (encodePipe P x) = x) ∧
      pipelineInterpret exSt exV11 = [1, 1, 3] := by
  refine ⟨fun pen P Q st x hw hf h => pipeline_round_trip hw hf h, ?_⟩
  with_unfolding_all rfl

/-- Witness for C1 at the documented example and its optimum `[1, 1, 3]`. -/
theorem C1_round_trip_witness :
    Wf exP ∧ Feasible exP [1, 1, 3] ∧
      pipelineConvert none exP = .ok (exQ, exSt) ∧
      objValue exQ.objective (encodePipe exP [1, 1, 3]) = objValue exP.objective [1, 1, 3] ∧
      pipelineInterpret exSt (encodePipe exP [1, 1, 3]) = [1, 1, 3] := by
  refine ⟨by with_unfolding_all decide, by with_unfolding_all decide,
    by with_unfolding_all rfl, ?_, ?_⟩
  · exact (C1_round_trip.1 none exP exQ exSt [1, 1, 3] (by with_unfolding_all decide)
      (by with_unfolding_all decide) (by with_unfolding_all rfl)).1
  · exact (C1_round_trip.1 none exP exQ exSt [1, 1, 3] (by with_unfolding_all decide)
      (by with_unfolding_all decide) (by with_unfolding_all rfl)).2

theorem bcM_val {n m : ℕ} (h1 : 2 ^ m ≤ n + 1) (h2 : n + 1 < 2 ^ (m + 1)) : bcM n = m :=
  Nat.log_eq_of_pow_le_of_lt_pow h1 h2

theorem bcCoeffs_7 : bcCoeffs 7 = [1, 2, 4] := by
  have h : bcM 7 = 3 := bcM_val (by norm_num) (by norm_num)
  unfold bcCoeffs
  rw [h]
  decide

theorem bcCoeffs_5 : bcCoeffs 5 = [1, 2, 2] := by
  have h : bcM 5 = 2 := bcM_val (by norm_num) (by norm_num)
  unfold bcCoeffs
  rw [h]
  decide

theorem bcCoeffs_6 : bcCoeffs 6 = [1, 2, 3] := by
  have h : bcM 6 = 2 := bcM_val (by norm_num) (by norm_num)
  unfold bcCoeffs
  rw [h]
  decide

/-- C10: InequalityToEquality.convert leaves the objective entirely
unchanged — for every input problem the converted problem's objective
sense, constant term, linear coefficients and quadratic coefficients equal
those of the input. -/
theorem C10_objective_unchanged :
    ∀ P : Problem,
      (InequalityToEquality.convert P).1.objective = P.objective ∧
        (InequalityToEquality.convert P).1.objective.sense = P.objective.sense ∧
        (InequalityToEquality.convert P).1.objective.constant = P.objective.constant ∧
        (InequalityToEquality.convert P).1.objective.linear = P.objective.linear ∧
        (InequalityToEquality.convert P).1.objective.quadratic = P.objective.quadratic :=
  fun _ => ⟨rfl, rfl, rfl, rfl, rfl⟩

/-- C2: InequalityToEquality.convert replaces every LE constraint `L ≤ r`
by the equality `L + s = floor(r)` with a new slack variable `s` of domain
`[0, floor(r) - lo]`, and every GE constraint `L ≥ r` by `L - s = ceil(r)`
with slack domain `[0, hi - ceil(r)]`, where `lo`/`hi` are the tight bounds
of `L` over the variable boxes and floor/ceil apply only when `L` is
integer-valued; equality constraints pass through; in the documented
example the converted constraints are `x+y+z+s1 = 5` with `s1 ∈ [0, 5]` and
`x+y+z-s2 = 3` with `s2 ∈ [0, 6]`. -/
theorem C2_ineq_to_eq_constraints :
    (∀ (P : Problem) (j : ℕ), j < P.constraints.length →
      ((P.constraints.getD j default).sense = .eq →
        (InequalityToEquality.convert P).1.constraints.getD j default =
          P.constraints.getD j default) ∧
      ((P.constraints.getD j default).sense = .le →
        (InequalityToEquality.convert P).1.constraints.getD j default =
          ⟨(P.constraints.getD j default).name,
           (P.constraints.getD j default).linear ++
             [(P.vars.length + slacksBefore P.constraints j, 1)], .eq,
           leRhs P.vars (P.constraints.getD j default)⟩ ∧
        (InequalityToEquality.convert P).1.vars.getD
            (P.vars.length + slacksBefore P.constraints j) default =
          ⟨(P.constraints.getD j default).name ++ "@int_slack",
           slackKind P.vars (P.constraints.getD j default), 0,
           leRhs P.vars (P.constraints.getD j default) -
             exprLo P.vars (P.constraints.getD j default).linear⟩) ∧
      ((P.constraints.getD j default).sense = .ge →
        (InequalityToEquality.convert P).1.constraints.getD j default =
          ⟨(P.constraints.getD j default).name,
           (P.constraints.getD j default).linear ++
             [(P.vars.length + slacksBefore P.constraints j, -1)], .eq,
           geRhs P.vars (P.constraints.getD j default)⟩ ∧
        (InequalityToEquality.convert P).1.vars.getD
            (P.vars.length + slacksBefore P.constraints j) default =
          ⟨(P.constraints.getD j default).name ++ "@int_slack",
           slackKind P.vars (P.constraints.getD j default), 0,
           exprHi P.vars (P.constraints.getD j default).linear -
             geRhs P.vars (P.constraints.getD j default)⟩)) ∧
      (InequalityToEquality.convert exP).1.constraints =
        [⟨"xyz_leq", [(0, 1), (1, 1), (2, 1), (3, 1)], .eq, 5⟩,
         ⟨"xyz_geq", [(0, 1), (1, 1), (2, 1), (4, -1)], .eq, 3⟩] ∧
      (InequalityToEquality.convert exP).1.vars =
        exP.vars ++ [⟨"xyz_leq@int_slack", .integer, 0, 5⟩,
                     ⟨"xyz_geq@int_slack", .integer, 0, 6⟩] := by
  refine ⟨fun P j hj => ?_, by with_unfolding_all rfl, by with_unfolding_all rfl⟩
  have hspec := conv1C_spec P.vars P.vars.length P.constraints 0 j hj
  have hidx : P.vars.length + 0 + slacksBefore P.constraints j =
      P.vars.length + slacksBefore P.constraints j := by omega
  rw [hidx] at hspec
  have hvars : ∀ w : Variable,
      (conv1C P.vars P.vars.length P.constraints 0).2.getD (slacksBefore P.constraints j)
          default = w →
      (InequalityToEquality.convert P).1.vars.getD
          (P.vars.length + slacksBefore P.constraints j) default = w := by
    intro w hw
    show (P.vars ++ (conv1C P.vars P.vars.length P.constraints 0).2).getD
        (P.vars.length + slacksBefore P.constraints j) default = w
    rw [List.getD_append_right _ _ _ _ (by omega)]
    rw [show P.vars.length + slacksBefore P.constraints j - P.vars.length =
      slacksBefore P.constraints j by omega]
    exact hw
  exact ⟨hspec.1,
    fun hle => ⟨(hspec.2.1 hle).1, hvars _ (hspec.2.1 hle).2⟩,
    fun hge => ⟨(hspec.2.2 hge).1, hvars _ (hspec.2.2 hge).2⟩⟩

/-- Witness for C2 at the documented example's first (LE) constraint. -/
theorem C2_ineq_to_eq_constraints_witness :
    0 < exP.constraints.length ∧
      ((InequalityToEquality.convert exP).1.constraints.getD 0 default =
        ⟨(exP.constraints.getD 0 default).name,
         (exP.constraints.getD 0 default).linear ++
           [(exP.vars.length + slacksBefore exP.constraints 0, 1)], .eq,
         leRhs exP.vars (exP.constraints.getD 0 default)⟩ ∧
       (InequalityToEquality.convert exP).1.vars.getD
           (exP.vars.length + slacksBefore exP.constraints 0) default =
         ⟨(exP.constraints.getD 0 default).name ++ "@int_slack",
          slackKind exP.vars (exP.constraints.getD 0 default), 0,
          leRhs exP.vars (exP.constraints.getD 0 default) -
            exprLo exP.vars (exP.constraints.getD 0 default).linear⟩) :=
  ⟨by decide, (C2_ineq_to_eq_constraints.1 exP 0 (by decide)).2.1 (by decide)⟩

/-- C3: the bounded-coefficient encoding uses the powers of two
`2^0 .. 2^(m-1)` for the largest `m` with `2^m - 1 ≤ n`, followed, when
they do not already sum to `n`, by the final coefficient `n - (2^m - 1)`;
the number of binary variables is at most `⌈log2 (n+1)⌉`; convert encodes
every integer variable with the coefficients of its range and base `lb`;
ranges `[0,7]`, `[0,5]`, `[0,6]` give `1,2,4`, `1,2,2` and `1,2,3`. -/
theorem C3_int_to_bin_coefficients :
    (∀ n : ℕ,
      (2 ^ bcM n - 1 ≤ n ∧ ∀ m, 2 ^ m - 1 ≤ n → m ≤ bcM n) ∧
        bcCoeffs n = (List.range (bcM n)).map (2 ^ ·) ++
          (if 2 ^ bcM n - 1 < n then [n - (2 ^ bcM n - 1)] else []) ∧
        (bcCoeffs n).length ≤ Nat.clog 2 (n + 1)) ∧
      (∀ (P Q : Problem) (es : List VarEnc) (i : ℕ),
        IntegerToBinary.convert P = .ok (Q, es) → i < P.vars.length →
        (P.vars.getD i defaultVar).kind = .integer →
        (es.getD i defaultEnc).base = (P.vars.getD i defaultVar).lb ∧
          (es.getD i defaultEnc).coeffs =
            (bcCoeffs (intRange (P.vars.getD i defaultVar))).map (fun c : ℕ => (c : ℚ))) ∧
      bcCoeffs 7 = [1, 2, 4] ∧ bcCoeffs 5 = [1, 2, 2] ∧ bcCoeffs 6 = [1, 2, 3] := by
  refine ⟨fun n => ⟨⟨bcM_le n, fun m hm => bcM_max hm⟩, rfl, bcCoeffs_length_le n⟩,
    fun P Q es i h hi hkind => ?_, bcCoeffs_7, bcCoeffs_5, bcCoeffs_6⟩
  obtain ⟨_, hes, _⟩ := convert2_ok h
  rw [hes, mkEncs_getD P.vars 0 i hi]
  constructor
  · show encBase (P.vars.getD i defaultVar) = (P.vars.getD i defaultVar).lb
    simp only [encBase, hkind]
  · show encCoeffs (P.vars.getD i defaultVar) = _
    simp only [encCoeffs, hkind]

/-- Output problem of the Integer-to-Binary stage on the documented
example. -/
def exQ2 : Problem :=
  match IntegerToBinary.convert exP1 with
  | .ok (q, _) => q
  | .error _ => default

/-- Witness for C3 at the documented example's integer variable `z`. -/
theorem C3_int_to_bin_coefficients_witness :
    IntegerToBinary.convert exP1 = .ok (exQ2, exEs2) ∧ 2 < exP1.vars.length ∧
      (exP1.vars.getD 2 defaultVar).kind = .integer ∧
      ((exEs2.getD 2 defaultEnc).base = (exP1.vars.getD 2 defaultVar).lb ∧
        (exEs2.getD 2 defaultEnc).coeffs =
          (bcCoeffs (intRange (exP1.vars.getD 2 defaultVar))).map (fun c : ℕ => (c : ℚ))) :=
  ⟨by with_unfolding_all rfl, by with_unfolding_all decide, by with_unfolding_all decide,
   C3_int_to_bin_coefficients.2.1 exP1 exQ2 exEs2 2 (by with_unfolding_all rfl)
     (by with_unfolding_all decide) (by with_unfolding_all decide)⟩

/-- C6: coverage of the bounded-coefficient encoding — every integer `k` in
`[lb, ub]` is reachable as `lb` plus a 0/1-weighted sum of the
coefficients, and no 0/1 assignment produces a weighted sum outside
`[0, ub - lb]`. -/
theorem C6_encoding_coverage :
    (∀ (lb ub k : ℤ), lb ≤ k → k ≤ ub →
        ∃ ds : List ℕ,
          ds.length = (bcCoeffs (ub - lb).toNat).length ∧
            (∀ d ∈ ds, d ≤ 1) ∧
            dotN (bcCoeffs (ub - lb).toNat) ds = (k - lb).toNat) ∧
      ∀ (n : ℕ) (ds : List ℕ), (∀ d ∈ ds, d ≤ 1) → dotN (bcCoeffs n) ds ≤ n := by
  constructor
  · intro lb ub k h1 h2
    refine ⟨bcDigits (ub - lb).toNat (k - lb).toNat, bcDigits_length _ _,
      bcDigits_le_one _ _, ?_⟩
    exact bcDigits_dot (by omega)
  · intro n ds hds
    calc dotN (bcCoeffs n) ds ≤ (bcCoeffs n).sum := dotN_le_sum hds
    _ = n := bcCoeffs_sum n

/-- Witness for C6: the value 5 in the range `[0, 6]`, and an upper-bound
instance. -/
theorem C6_encoding_coverage_witness :
    ((0 : ℤ) ≤ 5 ∧ (5 : ℤ) ≤ 6 ∧
      ∃ ds : List ℕ,
        ds.length = (bcCoeffs ((6 : ℤ) - 0).toNat).length ∧
          (∀ d ∈ ds, d ≤ 1) ∧
          dotN (bcCoeffs ((6 : ℤ) - 0).toNat) ds = ((5 : ℤ) - 0).toNat) ∧
      dotN (bcCoeffs 6) [1, 1, 1] ≤ 6 :=
  ⟨⟨by decide, by decide, C6_encoding_coverage.1 0 6 5 (by decide) (by decide)⟩,
   C6_encoding_coverage.2 6 [1, 1, 1] (by decide)⟩

/-- C7: IntegerToBinary.interpret returns, for each original integer
variable, `lb` plus the weighted sum of its binary expansion entries of the
input vector, copies pass-through variables unchanged, and orders the
output by the original problem's variable order; in the documented example
it maps the 11-entry binary solution back to `[1, 1, 3, 0, 2]`. -/
theorem C7_int_to_bin_interpret :
    (∀ (P Q : Problem) (es : List VarEnc) (v : List ℚ),
      IntegerToBinary.convert P = .ok (Q, es) →
      (IntegerToBinary.interpret es v).length = P.vars.length ∧
        ∀ i, i < P.vars.length →
          ((P.vars.getD i defaultVar).kind = .integer →
            (IntegerToBinary.interpret es v).getD i 0 =
              (P.vars.getD i defaultVar).lb +
                dotQ ((bcCoeffs (intRange (P.vars.getD i defaultVar))).map
                    (fun c : ℕ => (c : ℚ)))
                  (v.drop (blockOffset P.vars i))) ∧
          ((P.vars.getD i defaultVar).kind = .binary →
            (IntegerToBinary.interpret es v).getD i 0 =
              v.getD (blockOffset P.vars i) 0)) ∧
      IntegerToBinary.interpret exEs2 exV11 = [1, 1, 3, 0, 2] := by
  refine ⟨fun P Q es v h => ?_, by with_unfolding_all rfl⟩
  obtain ⟨_, hes, _⟩ := convert2_ok h
  constructor
  · show (es.map fun e => e.val v).length = P.vars.length
    rw [List.length_map, hes, mkEncs_length]
  · intro i hi
    have hval : (IntegerToBinary.interpret es v).getD i 0 =
        (es.getD i defaultEnc).val v := map_val_getD es v i
    have hgd : es.getD i defaultEnc =
        ⟨encBase (P.vars.getD i defaultVar), encCoeffs (P.vars.getD i defaultVar),
         blockOffset P.vars i⟩ := by
      rw [hes, mkEncs_getD P.vars 0 i hi, Nat.zero_add]
    constructor
    · intro hkind
      rw [hval, hgd]
      show encBase (P.vars.getD i defaultVar) +
          evalL (termsFrom (blockOffset P.vars i) (encCoeffs (P.vars.getD i defaultVar))) v = _
      rw [evalL_termsFrom_drop]
      simp only [encBase, encCoeffs, hkind]
    · intro hkind
      rw [hval, hgd]
      show encBase (P.vars.getD i defaultVar) +
          evalL (termsFrom (blockOffset P.vars i) (encCoeffs (P.vars.getD i defaultVar))) v = _
      rw [evalL_termsFrom_drop]
      simp only [encBase, encCoeffs, hkind]
      rw [dotQ_single, getD_drop, Nat.add_zero]
      ring

/-- Witness for C7 at the documented example: the binary variable `x` and
the length/order facts at the 11-entry optimum. -/
theorem C7_int_to_bin_interpret_witness :
    IntegerToBinary.convert exP1 = .ok (exQ2, exEs2) ∧ 0 < exP1.vars.length ∧
      (exP1.vars.getD 0 defaultVar).kind = .binary ∧
      (IntegerToBinary.interpret exEs2 exV11).length = exP1.vars.length ∧
      (IntegerToBinary.interpret exEs2 exV11).getD 0 0 =
        exV11.getD (blockOffset exP1.vars 0) 0 :=
  ⟨by with_unfolding_all rfl, by with_unfolding_all decide, by with_unfolding_all decide,
   (C7_int_to_bin_interpret.1 exP1 exQ2 exEs2 exV11 (by with_unfolding_all rfl)).1,
   ((C7_int_to_bin_interpret.1 exP1 exQ2 exEs2 exV11 (by with_unfolding_all rfl)).2 0
       (by with_unfolding_all decide)).2 (by with_unfolding_all decide)⟩

/-- C8: InequalityToEquality.interpret is the projection onto the leading
original-variable prefix — it returns the sub-vector over the original
variables with every retained position unchanged, slack variables being
appended after all original variables; in the documented example it maps
the 5-entry solution to `[1, 1, 3]`. -/
theorem C8_ineq_to_eq_interpret :
    (∀ (P : Problem) (v : List ℚ),
      InequalityToEquality.interpret (InequalityToEquality.convert P).2 v =
        v.take P.vars.length ∧
        (∀ i, i < P.vars.length →
          (InequalityToEquality.interpret (InequalityToEquality.convert P).2 v).getD i 0 =
            v.getD i 0) ∧
        ∃ svs : List Variable, (InequalityToEquality.convert P).1.vars = P.vars ++ svs) ∧
      InequalityToEquality.interpret (InequalityToEquality.convert exP).2 [1, 1, 3, 0, 2] =
        [1, 1, 3] := by
  refine ⟨fun P v => ?_, by with_unfolding_all rfl⟩
  refine ⟨rfl, fun i hi => ?_, ⟨(conv1C P.vars P.vars.length P.constraints 0).2, rfl⟩⟩
  show (v.take P.vars.length).getD i 0 = v.getD i 0
  exact getD_take 0 v P.vars.length i hi

/-- Witness for C8 at the documented example's 5-entry solution. -/
theorem C8_ineq_to_eq_interpret_witness :
    2 < exP.vars.length ∧
      (InequalityToEquality.interpret (InequalityToEquality.convert exP).2
          [1, 1, 3, 0, 2]).getD 2 0 = ([1, 1, 3, 0, 2] : List ℚ).getD 2 0 :=
  ⟨by decide,
   (C8_ineq_to_eq_interpret.1 exP [1, 1, 3, 0, 2]).2.1 2 (by decide)⟩

/-- C9: calling the orchestrator's interpret before any successful convert
fails with the StateNotInitialized error, and calling it with a vector
whose length differs from the converted problem's variable count fails with
the DimensionMismatch error; in neither case is a result produced. -/
theorem C9_interpret_errors :
    (∀ (o : QuadraticProgramToQubo) (v : List ℚ), o.state = none →
        o.interpret v = .error .stateNotInitialized) ∧
      ∀ (o : QuadraticProgramToQubo) (st : PipeState) (v : List ℚ),
        o.state = some st → v.length ≠ st.nFinal →
        o.interpret v = .error .dimensionMismatch := by
  constructor
  · intro o v h
    unfold QuadraticProgramToQubo.interpret
    rw [h]
  · intro o st v h hlen
    unfold QuadraticProgramToQubo.interpret
    rw [h]
    show (if v.length = st.nFinal then Except.ok (pipelineInterpret st v)
      else Except.error ConvError.dimensionMismatch) =
        Except.error ConvError.dimensionMismatch
    rw [if_neg hlen]

/-- Witness for C9: a fresh orchestrator and a wrong-length vector. -/
theorem C9_interpret_errors_witness :
    QuadraticProgramToQubo.interpret ⟨none, none⟩ [1] = .error .stateNotInitialized ∧
      QuadraticProgramToQubo.interpret ⟨none, some ⟨3, [], 11⟩⟩ [1] =
        .error .dimensionMismatch :=
  ⟨C9_interpret_errors.1 ⟨none, none⟩ [1] rfl,
   C9_interpret_errors.2 ⟨none, some ⟨3, [], 11⟩⟩ ⟨3, [], 11⟩ [1] rfl (by decide)⟩

/-- C4: when the caller does not configure a penalty factor,
LinearEqualityToPenalty.convert uses `M = 1e5 = 100000` as the multiplier
of every added penalty term: for every input problem the converted
objective differs from the input objective by exactly
`sign * 100000 * Σ (b_j - L_j)^2` at every binary assignment. -/
theorem C4_default_penalty :
    LinearEqualityToPenalty.defaultPenalty = 1e5 ∧
      (1e5 : ℚ) = 100000 ∧
      ∀ (P Q : Problem) (n3 : ℕ) (y : List ℚ),
        LinearEqualityToPenalty.convert none P = .ok (Q, n3) →
        (∀ i, y.getD i 0 * y.getD i 0 = y.getD i 0) →
        objValue Q.objective y =
          objValue P.objective y +
            penSign P.objective.sense * 100000 * residSq P.constraints y := by
  refine ⟨rfl, by with_unfolding_all rfl, fun P Q n3 y h hy => ?_⟩
  have hv := convert3_objValue h y hy
  rw [hv]
  have hM : (none : Option ℚ).getD LinearEqualityToPenalty.defaultPenalty = 100000 := by
    show LinearEqualityToPenalty.defaultPenalty = 100000
    with_unfolding_all rfl
  rw [hM]

/-- Single-constraint minimization problem used to witness C4. -/
def c4P : Problem :=
  ⟨[⟨"x", .binary, 0, 1⟩], ⟨.minimize, 0, [(0, 1)], []⟩,
   [⟨"c", [(0, 1)], .eq, 1⟩]⟩

/-- Penalty conversion of `c4P` with the default penalty factor. -/
def c4Q : Problem :=
  match LinearEqualityToPenalty.convert none c4P with
  | .ok (q, _) => q
  | .error _ => default

/-- Witness for C4 at a one-variable problem and the assignment `[1]`. -/
theorem C4_default_penalty_witness :
    LinearEqualityToPenalty.convert none c4P = .ok (c4Q, 1) ∧
      objValue c4Q.objective [1] =
        objValue c4P.objective [1] +
          penSign c4P.objective.sense * 100000 * residSq c4P.constraints [1] :=
  ⟨by with_unfolding_all rfl,
   C4_default_penalty.2.2 c4P c4Q 1 [1] (by with_unfolding_all rfl)
     (entries01_getD (by decide))⟩

/-- Single-constraint maximization problem on which the original C5 claim
fails: at the infeasible binary assignment `[0]` the added penalty
contribution is negative, not positive. -/
def c5P : Problem :=
  ⟨[⟨"x", .binary, 0, 1⟩], ⟨.maximize, 0, [], []⟩,
   [⟨"c0", [(0, 1)], .eq, 1⟩]⟩

/-- Penalty conversion of `c5P` with the default penalty factor. -/
def c5Q : Problem :=
  match LinearEqualityToPenalty.convert none c5P with
  | .ok (q, _) => q
  | .error _ => default

/-- Counterexample to C5 as stated: in the maximization problem `c5P`, the
binary assignment `[0]` violates the equality constraint, yet the
contribution added by the conversion to the objective is `-100000`, which
is not strictly positive. -/
theorem C5_counterexample_maximize :
    LinearEqualityToPenalty.convert none c5P = .ok (c5Q, 1) ∧
      (∀ r ∈ ([0] : List ℚ), r = 0 ∨ r = 1) ∧
      (∃ c ∈ c5P.constraints, ¬ satisfiedAt c [0]) ∧
      objValue c5Q.objective [0] - objValue c5P.objective [0] = -100000 ∧
      ¬ (0 < objValue c5Q.objective [0] - objValue c5P.objective [0]) := by
  refine ⟨by with_unfolding_all rfl, by decide,
    ⟨⟨"c0", [(0, 1)], .eq, 1⟩, by decide, by with_unfolding_all decide⟩,
    by with_unfolding_all rfl, by with_unfolding_all decide⟩

/-- C5 (amended): for every binary assignment satisfying all of the input
problem's equality constraints, the contribution LinearEqualityToPenalty
adds to the objective is exactly zero; for every binary assignment
violating at least one constraint, with a positive penalty factor, the
added contribution is strictly positive when the sense is Minimize and
strictly negative when the sense is Maximize (in both senses it strictly
worsens the objective); the penalty per constraint is
`sign * M * (b - Σ a_i x_i)^2` expanded with `x_i^2 = x_i`. -/
theorem C5_penalty_zero_at_feasible :
    ∀ (pen : Option ℚ) (P Q : Problem) (n3 : ℕ) (y : List ℚ),
      LinearEqualityToPenalty.convert pen P = .ok (Q, n3) →
      0 < pen.getD LinearEqualityToPenalty.defaultPenalty →
      (∀ i, y.getD i 0 * y.getD i 0 = y.getD i 0) →
      ((∀ c ∈ P.constraints, satisfiedAt c y) →
        objValue Q.objective y - objValue P.objective y = 0) ∧
        ∀ c0 ∈ P.constraints, ¬ satisfiedAt c0 y →
          (P.objective.sense = .minimize →
            0 < objValue Q.objective y - objValue P.objective y) ∧
          (P.objective.sense = .maximize →
            objValue Q.objective y - objValue P.objective y < 0) := by
  intro pen P Q n3 y h hpos hy
  have hval := convert3_objValue h y hy
  obtain ⟨hceq, _, _, _⟩ := convert3_ok h
  constructor
  · intro hsat
    have h0 : residSq P.constraints y = 0 := by
      refine residSq_eq_zero fun c hc => ?_
      have hs := hsat c hc
      unfold satisfiedAt at hs
      rw [hceq c hc] at hs
      exact hs
    rw [hval, h0]
    ring
  · intro c0 hc0 hviol
    have hne : evalL c0.linear y ≠ c0.rhs := by
      intro heq
      apply hviol
      unfold satisfiedAt
      rw [hceq c0 hc0]
      exact heq
    have hres := residSq_pos hc0 hne
    have hMres := mul_pos hpos hres
    constructor
    · intro hmin
      rw [hval, hmin]
      show 0 < objValue P.objective y +
          penSign .minimize * pen.getD LinearEqualityToPenalty.defaultPenalty *
            residSq P.constraints y - objValue P.objective y
      rw [show penSign .minimize = 1 from rfl]
      linarith
    · intro hmax
      rw [hval, hmax]
      show objValue P.objective y +
          penSign .maximize * pen.getD LinearEqualityToPenalty.defaultPenalty *
            residSq P.constraints y - objValue P.objective y < 0
      rw [show penSign .maximize = -1 from rfl]
      linarith

/-- Witness for the amended C5 at `c5P` and the infeasible assignment
`[0]`. -/
theorem C5_penalty_zero_at_feasible_witness :
    objValue c5Q.objective [0] - objValue c5P.objective [0] < 0 :=
  ((C5_penalty_zero_at_feasible none c5P c5Q 1 [0] (by with_unfolding_all rfl)
        (by with_unfolding_all decide) (entries01_getD (by decide))).2
      ⟨"c0", [(0, 1)], .eq, 1⟩ (by decide) (by with_unfolding_all decide)).2 rfl

end QPConv
